import Mathlib

/-!
# Verification of the VibeTide level codec

Shallow embedding of the level codec implemented in
`vibe_tide_mcp_app/server.ts` (functions `runLengthEncode`, `runLengthDecode`,
`base64urlEncode`, `base64urlDecode`, `encodeLevel`, `decodeLevel`) and its
UI-side duplicate in `vibe_tide_mcp_app/src/mcp-app.ts` (class `LevelEncoder`).

Strings are modelled as `List Char`, byte sequences as `List ℕ` (each element
a byte value `< 256`).  JavaScript numbers appearing as parsed dimensions are
modelled as `Option ℤ` with `none` standing for `NaN`; the tile identifiers
and grid sizes that the codec actually produces are natural numbers.
-/

namespace VibeTide

/-! ## Decimal digits and the JS `Number` / template-literal conversions -/

/-- The decimal digit character for `n < 10` (`'0'` … `'9'`). -/
def digitChar (n : ℕ) : Char := Char.ofNat (48 + n)

/-- Digit accumulation for `natToChars`; `fuel` only bounds the recursion
depth (any `fuel > n` behaves identically, see `natToCharsAux_acc`). -/
def natToCharsAux : ℕ → ℕ → List Char → List Char
  | 0, _, acc => acc
  | fuel + 1, n, acc =>
    if n < 10 then digitChar n :: acc
    else natToCharsAux fuel (n / 10) (digitChar (n % 10) :: acc)

/-- Decimal rendering of a natural number, as produced by a JS template
literal `${n}` for a nonnegative integer. -/
def natToChars (n : ℕ) : List Char := natToCharsAux (n + 1) n []

/-- Value of a string of decimal digits (the value JS `Number` gives a
nonempty all-digit string). -/
def digitsToNat (s : List Char) : ℕ :=
  s.foldl (fun a c => a * 10 + (c.toNat - 48)) 0

/-- JS ASCII whitespace stripped by `Number` conversion. -/
def isJsWs (c : Char) : Bool :=
  c = ' ' ∨ c = '\t' ∨ c = '\n' ∨ c = '\r' ∨ c = '\x0b' ∨ c = '\x0c'

/-- Model of the JS `Number(string)` conversion on the plain-integer
grammar: whitespace is trimmed, the empty string converts to `0`, an
optional sign followed by decimal digits converts to the exact signed
value, and everything else is `NaN`, modelled as `none`.  Codec-produced
dimension strings always fall in this grammar with in-range values; the
full conversion — `Infinity` forms and overflow included — is modelled
by `jsNumberX` below and drives the outcome classification. -/
def jsNumber (s : List Char) : Option ℤ :=
  let t := ((s.dropWhile isJsWs).reverse.dropWhile isJsWs).reverse
  match t with
  | [] => some 0
  | c :: ds =>
    if c = '-' then
      if ds ≠ [] ∧ ds.all Char.isDigit then some (-(digitsToNat ds : ℤ)) else none
    else if c = '+' then
      if ds ≠ [] ∧ ds.all Char.isDigit then some (digitsToNat ds : ℤ) else none
    else if (c :: ds).all Char.isDigit then some (digitsToNat (c :: ds) : ℤ)
    else none

/-- `Number(undefined)` is `NaN`; this lifts `jsNumber` to a possibly
missing (`undefined`) destructured string. -/
def jsNumberU : Option (List Char) → Option ℤ
  | none => none
  | some s => jsNumber s

/-- Number of iterations of a JS loop `for (let i = 0; i < n; i++)` when
`n` is the given number (`none` = `NaN`: the comparison is always false). -/
def natIters : Option ℤ → ℕ
  | none => 0
  | some z => z.toNat

/-! ## JS `String.prototype.split` on a single-character separator -/

/-- `s.split(sep)` for a one-character separator: the list of (possibly
empty) segments between occurrences of `sep`; never empty. -/
def jsSplit (sep : Char) : List Char → List (List Char)
  | [] => [[]]
  | c :: rest =>
    if c = sep then [] :: jsSplit sep rest
    else
      match jsSplit sep rest with
      | [] => [[c]]
      | h :: t => (c :: h) :: t

/-! ## Tile alphabet (`tileChars` / `charTiles` in both sources) -/

/-- The id → char table `tileChars`. Ids outside `[0,7]` are absent. -/
def tileChars (t : ℕ) : Option Char :=
  match t with
  | 0 => some '.'
  | 1 => some 'G'
  | 2 => some 'R'
  | 3 => some 'Y'
  | 4 => some 'I'
  | 5 => some 'F'
  | 6 => some 'S'
  | 7 => some 'W'
  | _ => none

/-- The char → id table `charTiles`. -/
def charTiles (c : Char) : Option ℕ :=
  if c = '.' then some 0
  else if c = 'G' then some 1
  else if c = 'R' then some 2
  else if c = 'Y' then some 3
  else if c = 'I' then some 4
  else if c = 'F' then some 5
  else if c = 'S' then some 6
  else if c = 'W' then some 7
  else none

/-- `charTiles[char] ?? 0`: the tile id of a character, defaulting unknown
characters to the empty tile `0`. -/
def tileOfChar (c : Char) : ℕ := (charTiles c).getD 0

/-- `tileChars[tile] ?? "."`: the character of a tile id, defaulting
out-of-range ids to the empty character. -/
def charOfTile (t : ℕ) : Char := (tileChars t).getD '.'

/-! ## Run-length compression of the empty tile (`runLengthEncode`) -/

/-- Flushing the pending run in `runLengthEncode`: a run of `'.'` longer
than 2 becomes `'.'` followed by the decimal count, every other run is
written out literally. -/
def rleEmit (current : Char) (count : ℕ) : List Char :=
  if current = '.' ∧ 2 < count then '.' :: natToChars count
  else List.replicate count current

/-- The loop of `runLengthEncode`, carrying the pending character and its
count: only equal consecutive `'.'` characters extend the pending run
(`input[i] === current && current === "."`); any other character flushes. -/
def rleGo (current : Char) (count : ℕ) : List Char → List Char
  | [] => rleEmit current count
  | c :: rest =>
    if c = current ∧ current = '.' then rleGo current (count + 1) rest
    else rleEmit current count ++ rleGo c 1 rest

/-- `runLengthEncode` from `server.ts` (identical in `mcp-app.ts`): run
length compression restricted to the `'.'` character. -/
def runLengthEncode : List Char → List Char
  | [] => []
  | c :: rest => rleGo c 1 rest

/-- The guard `i + 1 < input.length && /\d/.test(input[i + 1])` of
`runLengthDecode`: the next character exists and is a decimal digit. -/
def headIsDigit : List Char → Bool
  | d :: _ => d.isDigit
  | [] => false

/-- The loop of `runLengthDecode`; `fuel` only bounds the recursion depth
(each step consumes at least one character, so any `fuel ≥ length`
behaves identically, see `runLengthDecodeAux_fuel`). -/
def runLengthDecodeAux : ℕ → List Char → List Char
  | 0, _ => []
  | fuel + 1, s =>
    match s with
    | [] => []
    | c :: rest =>
      if c = '.' ∧ headIsDigit rest then
        List.replicate (digitsToNat (rest.takeWhile Char.isDigit)) '.' ++
          runLengthDecodeAux fuel (rest.dropWhile Char.isDigit)
      else c :: runLengthDecodeAux fuel rest

/-- `runLengthDecode`: a `'.'` immediately followed by at least one decimal
digit expands to that many `'.'` characters (all following digits are
consumed as the count); every other character is copied through.  The
count is modelled as an exact natural; the source's `".".repeat(Number(numStr))`
throws a `RangeError` once the count overflows the double range, a path
modelled exactly by `runLengthDecodeX` below. -/
def runLengthDecode (s : List Char) : List Char :=
  runLengthDecodeAux s.length s

/-! ## Base64 (RFC 4648), the URL-safe variant used by both sources -/

/-- The standard base64 alphabet: character of a sextet. -/
def b64c (n : ℕ) : Char :=
  if n < 26 then Char.ofNat (65 + n)
  else if n < 52 then Char.ofNat (97 + (n - 26))
  else if n < 62 then Char.ofNat (48 + (n - 52))
  else if n = 62 then '+'
  else '/'

/-- Sextet value of a standard-alphabet base64 character (`none` for
characters outside the alphabet, including `'='`). -/
def b64Val (c : Char) : Option ℕ :=
  if 'A' ≤ c ∧ c ≤ 'Z' then some (c.toNat - 65)
  else if 'a' ≤ c ∧ c ≤ 'z' then some (c.toNat - 97 + 26)
  else if '0' ≤ c ∧ c ≤ '9' then some (c.toNat - 48 + 52)
  else if c = '+' then some 62
  else if c = '/' then some 63
  else none

/-- Standard base64 of a byte sequence, without padding characters (the
sources strip `'='` padding right after encoding). -/
def bytesToB64 : List ℕ → List Char
  | [] => []
  | [b0] => [b64c (b0 / 4), b64c (b0 % 4 * 16)]
  | [b0, b1] => [b64c (b0 / 4), b64c (b0 % 4 * 16 + b1 / 16), b64c (b1 % 16 * 4)]
  | b0 :: b1 :: b2 :: rest =>
    b64c (b0 / 4) :: b64c (b0 % 4 * 16 + b1 / 16) ::
      b64c (b1 % 16 * 4 + b2 / 64) :: b64c (b2 % 64) :: bytesToB64 rest

/-- Bytes reconstructed from a sequence of sextets; a trailing lone sextet
carries no whole byte and is dropped. -/
def sextetsToBytes : List ℕ → List ℕ
  | s0 :: s1 :: s2 :: s3 :: rest =>
    (s0 * 4 + s1 / 16) :: (s1 % 16 * 16 + s2 / 4) :: (s2 % 4 * 64 + s3) :: sextetsToBytes rest
  | [s0, s1] => [s0 * 4 + s1 / 16]
  | [s0, s1, s2] => [s0 * 4 + s1 / 16, s1 % 16 * 16 + s2 / 4]
  | _ => []

/-- The `+`/`-` and `/`/`_` substitution applied after encoding. -/
def toUrlChar (c : Char) : Char :=
  if c = '+' then '-' else if c = '/' then '_' else c

/-- The reverse substitution applied before decoding. -/
def fromUrlChar (c : Char) : Char :=
  if c = '-' then '+' else if c = '_' then '/' else c

/-- URL-safe base64 of a byte sequence, no padding: `Buffer.toString("base64")`
followed by the `+`→`-`, `/`→`_` replacements and padding strip. -/
def b64urlOfBytes (bytes : List ℕ) : List Char :=
  (bytesToB64 bytes).map toUrlChar

/-- Byte sequence of a URL-safe base64 token, as decoded by
`Buffer.from(base64, "base64")` after the `-`→`+`, `_`→`/` replacements:
Node's decoder skips characters outside the alphabet (so the re-added `'='`
padding of the source, and any stray characters, contribute nothing). -/
def b64urlToBytes (s : List Char) : List ℕ :=
  sextetsToBytes ((s.map fromUrlChar).filterMap b64Val)

/-! ## UTF-8 (`Buffer.from(string, "utf-8")` / `buffer.toString("utf-8")`) -/

/-- UTF-8 bytes of one character. -/
def utf8EncodeChar (c : Char) : List ℕ :=
  if c.toNat < 128 then [c.toNat]
  else if c.toNat < 2048 then [192 + c.toNat / 64, 128 + c.toNat % 64]
  else if c.toNat < 65536 then
    [224 + c.toNat / 4096, 128 + c.toNat / 64 % 64, 128 + c.toNat % 64]
  else
    [240 + c.toNat / 262144, 128 + c.toNat / 4096 % 64, 128 + c.toNat / 64 % 64,
      128 + c.toNat % 64]

/-- UTF-8 bytes of a string. -/
def utf8Encode (s : List Char) : List ℕ := (s.map utf8EncodeChar).flatten

/-- The Unicode replacement character emitted for malformed UTF-8. -/
def replChar : Char := Char.ofNat 65533

/-- Second-byte range check of a three-byte UTF-8 sequence (excludes
overlong forms and surrogates). -/
def utf8Cont3 (b b1 : ℕ) : Bool :=
  if b = 224 then 160 ≤ b1 ∧ b1 ≤ 191
  else if b = 237 then 128 ≤ b1 ∧ b1 ≤ 159
  else 128 ≤ b1 ∧ b1 ≤ 191

/-- Second-byte range check of a four-byte UTF-8 sequence. -/
def utf8Cont4 (b b1 : ℕ) : Bool :=
  if b = 240 then 144 ≤ b1 ∧ b1 ≤ 191
  else if b = 244 then 128 ≤ b1 ∧ b1 ≤ 143
  else 128 ≤ b1 ∧ b1 ≤ 191

/-- Continuation-byte check. -/
def utf8IsCont (b : ℕ) : Bool := 128 ≤ b ∧ b ≤ 191

/-- One step of the replacing UTF-8 decoder: the character decoded at the
head byte `b` (given the following bytes) and how many bytes it consumed. -/
def utf8DecodeStep (b : ℕ) (rest : List ℕ) : Char × ℕ :=
  if b < 128 then (Char.ofNat b, 1)
  else if 194 ≤ b ∧ b ≤ 223 then
    match rest with
    | b1 :: _ =>
      if utf8IsCont b1 then (Char.ofNat ((b - 192) * 64 + (b1 - 128)), 2)
      else (replChar, 1)
    | [] => (replChar, 1)
  else if 224 ≤ b ∧ b ≤ 239 then
    match rest with
    | b1 :: b2 :: _ =>
      if utf8Cont3 b b1 then
        if utf8IsCont b2 then
          (Char.ofNat ((b - 224) * 4096 + (b1 - 128) * 64 + (b2 - 128)), 3)
        else (replChar, 2)
      else (replChar, 1)
    | [b1] => if utf8Cont3 b b1 then (replChar, 2) else (replChar, 1)
    | [] => (replChar, 1)
  else if 240 ≤ b ∧ b ≤ 244 then
    match rest with
    | b1 :: b2 :: b3 :: _ =>
      if utf8Cont4 b b1 then
        if utf8IsCont b2 then
          if utf8IsCont b3 then
            (Char.ofNat ((b - 240) * 262144 + (b1 - 128) * 4096 + (b2 - 128) * 64 + (b3 - 128)), 4)
          else (replChar, 3)
        else (replChar, 2)
      else (replChar, 1)
    | [b1, b2] =>
      if utf8Cont4 b b1 then (if utf8IsCont b2 then (replChar, 3) else (replChar, 2))
      else (replChar, 1)
    | [b1] => if utf8Cont4 b b1 then (replChar, 2) else (replChar, 1)
    | [] => (replChar, 1)
  else (replChar, 1)

/-- The loop of the UTF-8 decoder; `fuel` only bounds the recursion depth
(each step consumes at least one byte, so any `fuel ≥ length` behaves
identically, see `utf8DecodeAux_fuel`). -/
def utf8DecodeAux : ℕ → List ℕ → List Char
  | 0, _ => []
  | fuel + 1, bs =>
    match bs with
    | [] => []
    | b :: rest =>
      let step := utf8DecodeStep b rest
      step.1 :: utf8DecodeAux fuel (rest.drop (step.2 - 1))

/-- Replacing UTF-8 decoder (`buffer.toString("utf-8")`). -/
def utf8Decode (bs : List ℕ) : List Char :=
  utf8DecodeAux bs.length bs

/-- `base64urlEncode` from `server.ts`: UTF-8 bytes, standard base64,
`+`→`-`, `/`→`_`, padding stripped. -/
def base64urlEncode (s : List Char) : List Char := b64urlOfBytes (utf8Encode s)

/-- `base64urlDecode` from `server.ts`: pad, substitute back, base64-decode
the bytes, and read them as UTF-8. -/
def base64urlDecode (s : List Char) : List Char := utf8Decode (b64urlToBytes s)

/-! ## The gameplay-parameter block (`JSON.stringify` / `JSON.parse`) -/

/-- The sparse parameter record built by `encodeLevel`: each of the three
gameplay parameters is present (`some`) exactly when the corresponding
payload field passes `Number.isFinite`.  Values are modelled as integers;
the codec treats them opaquely through `JSON.stringify`/`JSON.parse`,
which are mutually inverse on the modelled values exactly as the JS pair
is on the doubles that arise in practice. -/
structure ParamsRec where
  maxEnemies : Option ℤ
  enemySpawnChance : Option ℤ
  coinSpawnChance : Option ℤ
  deriving DecidableEq

/-- The empty parameter record (`{}` / all three absent). -/
def noParams : ParamsRec := ⟨none, none, none⟩

/-- JSON rendering of an integer value (`JSON.stringify` of an integral
double in the decimal range). -/
def intToChars (v : ℤ) : List Char :=
  if v < 0 then '-' :: natToChars (-v).toNat else natToChars v.toNat

/-- The present key/value pairs in insertion order (`maxEnemies`,
`enemySpawnChance`, `coinSpawnChance`), as `JSON.stringify` serializes
them. -/
def paramsPairs (p : ParamsRec) : List (List Char × ℤ) :=
  (match p.maxEnemies with
   | some v => [("maxEnemies".toList, v)]
   | none => []) ++
  (match p.enemySpawnChance with
   | some v => [("enemySpawnChance".toList, v)]
   | none => []) ++
  (match p.coinSpawnChance with
   | some v => [("coinSpawnChance".toList, v)]
   | none => [])

/-- `JSON.stringify` of one `"key":value` member. -/
def memberChars (kv : List Char × ℤ) : List Char :=
  '"' :: kv.1 ++ '"' :: ':' :: intToChars kv.2

/-- Comma-join of the serialized members. -/
def joinComma : List (List Char) → List Char
  | [] => []
  | [m] => m
  | m :: ms => m ++ ',' :: joinComma ms

/-- The member list of a serialized object, up to and including the
closing brace. -/
def membersStr (kvs : List (List Char × ℤ)) : List Char :=
  joinComma (kvs.map memberChars) ++ ['}']

/-- `JSON.stringify(params)`: the members joined by commas inside braces,
with no whitespace. -/
def paramsJson (p : ParamsRec) : List Char :=
  '{' :: membersStr (paramsPairs p)

/-- Parse a JSON integer literal: an optional minus sign followed by
decimal digits; returns the value and the unconsumed remainder. -/
def parseInt (s : List Char) : Option (ℤ × List Char) :=
  match s with
  | c :: rest =>
    if c = '-' then
      if rest.takeWhile Char.isDigit = [] then none
      else some (-(digitsToNat (rest.takeWhile Char.isDigit) : ℤ),
        rest.dropWhile Char.isDigit)
    else
      if (c :: rest).takeWhile Char.isDigit = [] then none
      else some ((digitsToNat ((c :: rest).takeWhile Char.isDigit) : ℤ),
        (c :: rest).dropWhile Char.isDigit)
  | [] => none

/-- Parse one `"key":int` member (`recur` parses the members after a
comma): the body of each `parseMembers` step. -/
def parseMemberStep (recur : List Char → Option (List (List Char × ℤ)))
    (s : List Char) : Option (List (List Char × ℤ)) :=
  match s with
  | c :: rest =>
    if c = '"' then
      let key := rest.takeWhile (fun c => c ≠ '"')
      match rest.dropWhile (fun c => c ≠ '"') with
      | c2 :: c3 :: rest2 =>
        if c2 = '"' ∧ c3 = ':' then
          match parseInt rest2 with
          | some (v, rest3) =>
            (match rest3 with
             | c4 :: rest4 =>
               if c4 = ',' then
                 match recur rest4 with
                 | some kvs => some ((key, v) :: kvs)
                 | none => none
               else if c4 = '}' ∧ rest4 = [] then some [(key, v)]
               else none
             | [] => none)
          | none => none
        else none
      | _ => none
    else none
  | [] => none

/-- Parse the member list of a JSON object of string keys and integer
values, starting right after the opening `'\x7b'`; `fuel` bounds recursion
depth (any `fuel` at least the member count behaves identically). -/
def parseMembers : ℕ → List Char → Option (List (List Char × ℤ))
  | 0, _ => none
  | fuel + 1, s => parseMemberStep (parseMembers fuel) s

/-- Reading the decoded parameter object's fields, with later duplicate
keys overwriting earlier ones (JS object semantics). -/
def pairsToParams (kvs : List (List Char × ℤ)) : ParamsRec :=
  kvs.foldl
    (fun acc kv =>
      if kv.1 = "maxEnemies".toList then { acc with maxEnemies := some kv.2 }
      else if kv.1 = "enemySpawnChance".toList then { acc with enemySpawnChance := some kv.2 }
      else if kv.1 = "coinSpawnChance".toList then { acc with coinSpawnChance := some kv.2 }
      else acc)
    noParams

/-- Model of `JSON.parse` restricted to objects of string keys and integer
values — the only JSON the codec ever produces.  A text outside this
grammar parses to `none`, which the decoders turn into the empty parameter
set, exactly as their `try … catch \x7b params = \x7d` (and subsequent
property reads of a non-object) would. -/
def jsonParseParams (s : List Char) : Option ParamsRec :=
  match s with
  | c :: rest =>
    if c = '{' then
      if rest = ['}'] then some noParams
      else
        match parseMembers rest.length rest with
        | some kvs => some (pairsToParams kvs)
        | none => none
    else none
  | [] => none

/-! ## The level payload and the server-side codec (`server.ts`) -/

/-- The codec-relevant part of a `LevelPayload` handed to `encodeLevel`:
the grid and the three optional gameplay parameters (`some` models a
finite number, `none` an absent — or non-finite, hence skipped — one). -/
structure LevelPayloadIn where
  tiles : List (List ℕ)
  maxEnemies : Option ℤ
  enemySpawnChance : Option ℤ
  coinSpawnChance : Option ℤ
  deriving DecidableEq

/-- The parameter record `encodeLevel` builds from its payload via the
three `Number.isFinite` checks. -/
def levelParams (p : LevelPayloadIn) : ParamsRec :=
  ⟨p.maxEnemies, p.enemySpawnChance, p.coinSpawnChance⟩

/-- `width` as computed by `encodeLevel`: `tiles[0]?.length ?? 0`. -/
def encodeWidth (tiles : List (List ℕ)) : ℕ :=
  match tiles.head? with
  | some row => row.length
  | none => 0

/-- The flattened tile string of `encodeLevel`: rows concatenated in order,
each tile id mapped through `tileChars[tile] ?? "."`. -/
def flatTileChars (tiles : List (List ℕ)) : List Char :=
  (tiles.map (fun row => row.map charOfTile)).flatten

/-- The core payload string `"${width}x${height}:${tileString}"` of
`encodeLevel`, with the `"|" + base64url(JSON.stringify(params))` suffix
appended exactly when at least one parameter is present. -/
def encodeCore (p : LevelPayloadIn) : List Char :=
  let tiles := p.tiles
  let height := tiles.length
  let width := encodeWidth tiles
  let tileString := runLengthEncode (flatTileChars tiles)
  let encoded := natToChars width ++ 'x' :: natToChars height ++ ':' :: tileString
  let pr := levelParams p
  if pr.maxEnemies.isSome || pr.enemySpawnChance.isSome || pr.coinSpawnChance.isSome then
    encoded ++ '|' :: base64urlEncode (paramsJson pr)
  else encoded

/-- `encodeLevel` from `server.ts`. -/
def encodeLevel (p : LevelPayloadIn) : List Char :=
  base64urlEncode (encodeCore p)

/-- The `LevelPayload` returned by `decodeLevel`: `width`/`height` are the
raw `Number` results (`none` = `NaN`), the parameters the fields read off
the parsed parameter object. -/
structure DecodedLevel where
  tiles : List (List ℕ)
  width : Option ℤ
  height : Option ℤ
  maxEnemies : Option ℤ
  enemySpawnChance : Option ℤ
  coinSpawnChance : Option ℤ
  deriving DecidableEq

/-- `mainData` of `decodeLevel`: the part before the first `'|'` when one
is present (`decoded.split("|")`, first destructured element), otherwise
the whole decoded text. -/
def mainDataOf (decoded : List Char) : List Char :=
  if decoded.contains '|' then (jsSplit '|' decoded).headD [] else decoded

/-- The parameter record of `decodeLevel` on the server: the second `'|'`
segment is base64url-decoded (bytes read as UTF-8) and JSON-parsed, any
failure degrading to the empty record. -/
def paramsOfServer (decoded : List Char) : ParamsRec :=
  if decoded.contains '|' then
    match (jsSplit '|' decoded)[1]? with
    | some paramsData => (jsonParseParams (base64urlDecode paramsData)).getD noParams
    | none => noParams
  else noParams

/-- The `dimensions` segment: `mainData.split(":")`, first element. -/
def dimensionsOf (decoded : List Char) : List Char :=
  (jsSplit ':' (mainDataOf decoded)).headD []

/-- The `tileData` segment: `mainData.split(":")`, second element —
`undefined` (`none`) when `mainData` has no `':'`. -/
def tileDataOf (decoded : List Char) : Option (List Char) :=
  (jsSplit ':' (mainDataOf decoded))[1]?

/-- The parsed `width` of a decoded payload: `Number(widthStr)` where
`widthStr` is the part of the dimensions segment before the first `'x'`. -/
def widthNumOf (decoded : List Char) : Option ℤ :=
  jsNumber ((jsSplit 'x' (dimensionsOf decoded)).headD [])

/-- The parsed `height`: `Number(heightStr)` where `heightStr` is the
second `'x'` segment of the dimensions (possibly `undefined`). -/
def heightNumOf (decoded : List Char) : Option ℤ :=
  jsNumberU ((jsSplit 'x' (dimensionsOf decoded))[1]?)

/-- The tile-grid reconstruction loops of `decodeLevel`: `height` rows of
`width` cells, reading `tileString[index] ?? "."` at the running index
`index = y * width + x` (each row consumes the next `width` positions)
and mapping it through `charTiles[char] ?? 0`. -/
def decodeTiles (width : ℕ) : ℕ → List Char → List (List ℕ)
  | 0, _ => []
  | h + 1, s =>
    (List.range width).map (fun x => tileOfChar (s.getD x '.')) ::
      decodeTiles width h (s.drop width)

/-- The body of `decodeLevel` after base64url-decoding, shared shape of the
server decoder.  When `mainData` has no `':'`, `tileData` is `undefined`
and `runLengthDecode(tileData)` throws (`input.length` on `undefined`);
this is the only hard failure reachable with in-range run counts and
finite dimensions — `decodeOutcomeServer` below classifies the remaining
error paths (`RangeError` on an overflowing run count, divergence on an
`Infinity` loop bound) exactly. -/
def decodePayload (decoded : List Char) : Except String DecodedLevel :=
  let params := paramsOfServer decoded
  match tileDataOf decoded with
  | none => Except.error "TypeError: cannot read length of undefined"
  | some tileData =>
    let width := widthNumOf decoded
    let height := heightNumOf decoded
    let tileString := runLengthDecode tileData
    Except.ok
      { tiles := decodeTiles (natIters width) (natIters height) tileString
        width := width
        height := height
        maxEnemies := params.maxEnemies
        enemySpawnChance := params.enemySpawnChance
        coinSpawnChance := params.coinSpawnChance }

/-- `decodeLevel` from `server.ts`. -/
def decodeLevel (encodedLevel : List Char) : Except String DecodedLevel :=
  decodePayload (base64urlDecode encodedLevel)

/-! ## The UI-side duplicate (`LevelEncoder` in `mcp-app.ts`)

The algorithm is textually identical except that binary/text conversion
goes through the browser's `btoa`/`atob`, which work on byte-per-character
("latin-1") strings instead of UTF-8 bytes, and that `decode` has an
explicit structural check that throws `"Invalid encoded level"` on an
empty or missing dimensions/tile-data segment. -/

/-- ASCII whitespace removed by the forgiving-base64 preprocessing of
`atob`. -/
def isB64Ws (c : Char) : Bool :=
  c = ' ' ∨ c = '\t' ∨ c = '\n' ∨ c = '\r' ∨ c = '\x0c'

/-- Strip one or two trailing `'='` characters. -/
def stripB64Pad (t : List Char) : List Char :=
  match t.reverse with
  | [] => t
  | [c1] => if c1 = '=' then [] else t
  | c1 :: c2 :: r =>
    if c1 = '=' then (if c2 = '=' then r.reverse else (c2 :: r).reverse) else t

/-- `atob`: WHATWG forgiving base64 — whitespace removed, trailing padding
stripped when the length is a multiple of four, then the input must
consist of alphabet characters and not leave a single trailing sextet;
the result is the byte sequence (the browser returns it as a
byte-per-character string). -/
def jsAtob (s : List Char) : Option (List ℕ) :=
  let t := s.filter (fun c => !isB64Ws c)
  let t := if t.length % 4 = 0 then stripB64Pad t else t
  if t.length % 4 = 1 then none
  else if t.all (fun c => (b64Val c).isSome) then
    some (sextetsToBytes (t.filterMap b64Val))
  else none

/-- `LevelEncoder.base64urlDecode`: re-add padding by length, substitute
back, `atob`; the byte-per-character result is the bytes read as code
points. -/
def uiBase64urlDecode (input : List Char) : Option (List Char) :=
  let padded := input ++ List.replicate ((4 - input.length % 4) % 4) '='
  let base64 := padded.map fromUrlChar
  (jsAtob base64).map (List.map Char.ofNat)

/-- The parameter record of `LevelEncoder.decode`: like the server's, but
the inner base64url decode is `atob`-based; its throw is caught by the
surrounding `try`, degrading to the empty record. -/
def paramsOfUi (decoded : List Char) : ParamsRec :=
  if decoded.contains '|' then
    match (jsSplit '|' decoded)[1]? with
    | some paramsData =>
      match uiBase64urlDecode paramsData with
      | some pj => (jsonParseParams pj).getD noParams
      | none => noParams
    | none => noParams
  else noParams

/-- The body of `LevelEncoder.decode` after `base64urlDecode`: identical
to the server's except for the explicit structural check
`if (!dimensions || !tileData) throw new Error("Invalid encoded level")`
(`tileData` falsy both when `undefined` — no `':'` — and when empty). -/
def uiDecodePayload (decoded : List Char) : Except String DecodedLevel :=
  let params := paramsOfUi decoded
  match tileDataOf decoded with
  | none => Except.error "Invalid encoded level"
  | some tileData =>
    if dimensionsOf decoded = [] ∨ tileData = [] then Except.error "Invalid encoded level"
    else
      let width := widthNumOf decoded
      let height := heightNumOf decoded
      let tileString := runLengthDecode tileData
      Except.ok
        { tiles := decodeTiles (natIters width) (natIters height) tileString
          width := width
          height := height
          maxEnemies := params.maxEnemies
          enemySpawnChance := params.enemySpawnChance
          coinSpawnChance := params.coinSpawnChance }

/-- `LevelEncoder.decode` from `mcp-app.ts`: the `atob` failure on an
invalid base64 token also surfaces as a thrown error. -/
def uiDecodeLevel (encodedLevel : List Char) : Except String DecodedLevel :=
  match uiBase64urlDecode encodedLevel with
  | none => Except.error "InvalidCharacterError"
  | some decoded => uiDecodePayload decoded

/-- The value a tile identifier survives a round trip as: identifiers in
the table come back unchanged, identifiers outside `[0,7]` come back as
the empty tile (they were flattened to `'.'` by the lenient encode). -/
def normalizeTile (t : ℕ) : ℕ := if t ≤ 7 then t else 0

/-! ## Exact outcome classification of the decoders

`runLengthDecode` above models the `'.'`-run count as an exact natural
number and `jsNumber` covers only the plain-integer grammar; both are
exact on the inputs the other theorems quantify over, but the sources'
error behaviour on adversarial payloads is richer: the run count is
`Number(numStr)` — an IEEE-754 double that overflows to `Infinity` once
the digit string's value reaches `2^1024 - 2^970` — and
`".".repeat(Infinity)` throws a `RangeError`; and a dimension string can
also convert to `±Infinity` (the literal `Infinity`, or an overflowing
digit string), making `for (let y = 0; y < height; y++)` diverge.  The
definitions below translate those paths exactly and classify every run of
each decoder body — within the numeric fragment they cover — as a normal
return, a thrown error, or divergence.  The classification follows the
ECMAScript-mandated semantics; engine-specific resource limits (maximum
string length, memory) are not modelled. -/

theorem dropWhile_length_le {α : Type} (p : α → Bool) (l : List α) :
    (l.dropWhile p).length ≤ l.length := by
  induction l with
  | nil => simp [List.dropWhile]
  | cons a l ih =>
    rw [List.dropWhile]
    split
    · simp only [List.length_cons]; omega
    · simp

theorem takeWhile_append_all {α : Type} {p : α → Bool} {l : List α} (r : List α)
    (h : ∀ a ∈ l, p a = true) : (l ++ r).takeWhile p = l ++ r.takeWhile p := by
  induction l with
  | nil => simp
  | cons a l ih =>
    have ha : p a = true := h a (by simp)
    simp [List.takeWhile_cons, ha, ih (fun a ha => h a (by simp [ha]))]

theorem dropWhile_append_all {α : Type} {p : α → Bool} {l : List α} (r : List α)
    (h : ∀ a ∈ l, p a = true) : (l ++ r).dropWhile p = r.dropWhile p := by
  induction l with
  | nil => simp
  | cons a l ih =>
    have ha : p a = true := h a (by simp)
    simp [List.dropWhile_cons, ha, ih (fun a ha => h a (by simp [ha]))]

theorem takeWhile_eq_nil_of_head {α : Type} {p : α → Bool} {l : List α}
    (h : ∀ a, l.head? = some a → p a = false) : l.takeWhile p = [] := by
  cases l with
  | nil => simp
  | cons a l => simp [List.takeWhile_cons, h a rfl]

theorem dropWhile_eq_self_of_head {α : Type} {p : α → Bool} {l : List α}
    (h : ∀ a, l.head? = some a → p a = false) : l.dropWhile p = l := by
  cases l with
  | nil => simp
  | cons a l => simp [List.dropWhile_cons, h a rfl]

theorem char_toNat_lt (c : Char) : c.toNat < 1114112 := by
  have := c.valid
  unfold Char.toNat
  rcases this with h | ⟨h1, h2⟩ <;> omega

theorem char_ofNat_toNat {n : ℕ} (h : n < 55296) : (Char.ofNat n).toNat = n := by
  unfold Char.ofNat Char.toNat
  rw [dif_pos (by left; exact h)]
  rfl

theorem char_toNat_ne {c d : Char} (h : c.toNat ≠ d.toNat) : c ≠ d := by
  intro he; exact h (by rw [he])

theorem isDigit_toNat {c : Char} (h : c.isDigit = true) :
    48 ≤ c.toNat ∧ c.toNat ≤ 57 := by
  simp [Char.isDigit] at h
  exact ⟨h.1, h.2⟩

theorem digitChar_toNat {n : ℕ} (h : n < 10) : (digitChar n).toNat = 48 + n := by
  unfold digitChar
  exact char_ofNat_toNat (by omega)

theorem digitChar_isDigit {n : ℕ} (h : n < 10) : (digitChar n).isDigit = true := by
  unfold digitChar
  interval_cases n <;> decide

theorem ne_of_isDigit {c d : Char} (h : c.isDigit = true) (hd : d.isDigit = false) :
    c ≠ d := by
  intro he; subst he; rw [h] at hd; exact Bool.noConfusion hd

theorem isJsWs_eq_false_of_isDigit {c : Char} (h : c.isDigit = true) :
    isJsWs c = false := by
  unfold isJsWs
  by_contra h2
  simp only [Bool.not_eq_false, decide_eq_true_eq] at h2
  rcases h2 with h2 | h2 | h2 | h2 | h2 | h2 <;> subst h2 <;> exact absurd h (by decide)

/-! ## `natToChars` and `digitsToNat` -/

theorem natToCharsAux_fuel (n : ℕ) : ∀ fuel₁ fuel₂ : ℕ, ∀ acc : List Char,
    n < fuel₁ → n < fuel₂ → natToCharsAux fuel₁ n acc = natToCharsAux fuel₂ n acc := by
  induction n using Nat.strong_induction_on with
  | _ n ih =>
    intro fuel₁ fuel₂ acc h₁ h₂
    match fuel₁, fuel₂ with
    | f₁ + 1, f₂ + 1 =>
      rw [natToCharsAux, natToCharsAux]
      by_cases h10 : n < 10
      · rw [if_pos h10, if_pos h10]
      · rw [if_neg h10, if_neg h10]
        have hd : n / 10 < n := Nat.div_lt_self (by omega) (by omega)
        exact ih (n / 10) hd f₁ f₂ _ (by omega) (by omega)

theorem natToCharsAux_acc (n : ℕ) : ∀ fuel : ℕ, ∀ acc : List Char, n < fuel →
    natToCharsAux fuel n acc = natToCharsAux fuel n [] ++ acc := by
  induction n using Nat.strong_induction_on with
  | _ n ih =>
    intro fuel acc h
    match fuel with
    | f + 1 =>
      rw [natToCharsAux, natToCharsAux]
      by_cases h10 : n < 10
      · rw [if_pos h10, if_pos h10]; rfl
      · rw [if_neg h10, if_neg h10]
        have hd : n / 10 < n := Nat.div_lt_self (by omega) (by omega)
        by_cases hf : n / 10 < f
        · rw [ih (n / 10) hd f _ hf, ih (n / 10) hd f [digitChar (n % 10)] hf,
            List.append_assoc]
          rfl
        · omega

/-- The natural recurrence of `natToChars`. -/
theorem natToChars_eq (n : ℕ) :
    natToChars n =
      if n < 10 then [digitChar n] else natToChars (n / 10) ++ [digitChar (n % 10)] := by
  unfold natToChars
  rw [natToCharsAux]
  by_cases h10 : n < 10
  · rw [if_pos h10, if_pos h10]
  · rw [if_neg h10, if_neg h10]
    have hd : n / 10 < n := Nat.div_lt_self (by omega) (by omega)
    rw [natToCharsAux_acc (n / 10) n [digitChar (n % 10)] (by omega),
      natToCharsAux_fuel (n / 10) n (n / 10 + 1) [] (by omega) (by omega)]

theorem natToChars_ne_nil (n : ℕ) : natToChars n ≠ [] := by
  rw [natToChars_eq]
  split <;> simp

theorem natToChars_all_digit (n : ℕ) : ∀ c ∈ natToChars n, c.isDigit = true := by
  induction n using Nat.strong_induction_on with
  | _ n ih =>
    rw [natToChars_eq]
    by_cases h10 : n < 10
    · rw [if_pos h10]
      intro c hc
      rw [List.mem_singleton] at hc
      subst hc
      exact digitChar_isDigit h10
    · rw [if_neg h10]
      intro c hc
      rw [List.mem_append] at hc
      rcases hc with hc | hc
      · exact ih (n / 10) (Nat.div_lt_self (by omega) (by omega)) c hc
      · rw [List.mem_singleton] at hc
        subst hc
        exact digitChar_isDigit (Nat.mod_lt _ (by omega))

theorem digitsToNat_foldl (b : List Char) : ∀ A : ℕ,
    List.foldl (fun a c => a * 10 + (c.toNat - 48)) A b =
      A * 10 ^ b.length + digitsToNat b := by
  induction b with
  | nil => intro A; simp [digitsToNat]
  | cons c b ih =>
    intro A
    have hc : digitsToNat (c :: b) = (c.toNat - 48) * 10 ^ b.length + digitsToNat b := by
      have hr : digitsToNat (c :: b) =
          List.foldl (fun a c => a * 10 + (c.toNat - 48)) (0 * 10 + (c.toNat - 48)) b := rfl
      rw [hr, ih (0 * 10 + (c.toNat - 48))]
      ring
    simp only [List.foldl_cons, List.length_cons]
    rw [ih (A * 10 + (c.toNat - 48)), hc]
    ring

theorem digitsToNat_append (a b : List Char) :
    digitsToNat (a ++ b) = digitsToNat a * 10 ^ b.length + digitsToNat b := by
  unfold digitsToNat
  rw [List.foldl_append]
  exact digitsToNat_foldl b _

theorem digitsToNat_natToChars (n : ℕ) : digitsToNat (natToChars n) = n := by
  induction n using Nat.strong_induction_on with
  | _ n ih =>
    rw [natToChars_eq]
    by_cases h10 : n < 10
    · rw [if_pos h10]
      unfold digitsToNat
      simp [digitChar_toNat h10]
    · rw [if_neg h10, digitsToNat_append]
      rw [ih (n / 10) (Nat.div_lt_self (by omega) (by omega))]
      have hm : digitsToNat [digitChar (n % 10)] = n % 10 := by
        unfold digitsToNat
        simp [digitChar_toNat (Nat.mod_lt _ (show 0 < 10 by omega))]
      rw [hm]
      simp only [List.length_singleton, pow_one]
      omega

theorem dropWhile_eq_self_of_all {p : Char → Bool} {l : List Char}
    (h : ∀ a ∈ l, p a = false) : l.dropWhile p = l := by
  cases l with
  | nil => simp
  | cons a l => simp [List.dropWhile_cons, h a (by simp)]

/-! ## `jsNumber` on canonical dimension strings -/

theorem jsNumber_natToChars (n : ℕ) : jsNumber (natToChars n) = some n := by
  have hdig := natToChars_all_digit n
  have hws : ∀ a ∈ natToChars n, isJsWs a = false := fun a ha =>
    isJsWs_eq_false_of_isDigit (hdig a ha)
  have h1 : (natToChars n).dropWhile isJsWs = natToChars n := dropWhile_eq_self_of_all hws
  have h2 : (natToChars n).reverse.dropWhile isJsWs = (natToChars n).reverse :=
    dropWhile_eq_self_of_all (fun a ha => hws a (List.mem_reverse.mp ha))
  unfold jsNumber
  rw [h1, h2, List.reverse_reverse]
  obtain ⟨c, cs, hcs⟩ : ∃ c cs, natToChars n = c :: cs := by
    cases hnc : natToChars n with
    | nil => exact absurd hnc (natToChars_ne_nil n)
    | cons c cs => exact ⟨c, cs, rfl⟩
  have hc : c.isDigit = true := hdig c (by rw [hcs]; simp)
  simp only [hcs]
  rw [if_neg (ne_of_isDigit hc (by decide) : c ≠ '-'),
    if_neg (ne_of_isDigit hc (by decide) : c ≠ '+'), if_pos]
  · rw [← hcs, digitsToNat_natToChars]
    rfl
  · rw [← hcs, List.all_eq_true]
    exact fun a ha => hdig a ha

/-! ## `jsSplit` -/

theorem jsSplit_not_mem {sep : Char} {s : List Char} (h : sep ∉ s) :
    jsSplit sep s = [s] := by
  induction s with
  | nil => rfl
  | cons c rest ih =>
    have hc : c ≠ sep := fun he => h (by simp [he])
    have hr : sep ∉ rest := fun hm => h (by simp [hm])
    simp [jsSplit, hc, ih hr]

theorem jsSplit_append {sep : Char} {a : List Char} (b : List Char) (h : sep ∉ a) :
    jsSplit sep (a ++ sep :: b) = a :: jsSplit sep b := by
  induction a with
  | nil => simp [jsSplit]
  | cons c a ih =>
    have hc : c ≠ sep := fun he => h (by simp [he])
    have ha : sep ∉ a := fun hm => h (by simp [hm])
    have hne : jsSplit sep (a ++ sep :: b) = a :: jsSplit sep b := ih ha
    simp [jsSplit, hc, hne]

theorem headIsDigit_of_head {t : List Char} (h : ∀ a, t.head? = some a → a.isDigit = false) :
    headIsDigit t = false := by
  cases t with
  | nil => rfl
  | cons a t => exact h a rfl

theorem runLengthDecodeAux_fuel : ∀ fuel₁ : ℕ, ∀ s : List Char, ∀ fuel₂ : ℕ,
    s.length ≤ fuel₁ → s.length ≤ fuel₂ →
    runLengthDecodeAux fuel₁ s = runLengthDecodeAux fuel₂ s := by
  intro fuel₁
  induction fuel₁ with
  | zero =>
    intro s fuel₂ h₁ _
    have : s = [] := by
      cases s with
      | nil => rfl
      | cons c r => simp at h₁
    subst this
    cases fuel₂ <;> rfl
  | succ f₁ ih =>
    intro s fuel₂ h₁ h₂
    cases s with
    | nil => cases fuel₂ <;> rfl
    | cons c rest =>
      match fuel₂ with
      | f₂ + 1 =>
        rw [runLengthDecodeAux, runLengthDecodeAux]
        simp only [List.length_cons] at h₁ h₂
        by_cases hc : c = '.' ∧ headIsDigit rest
        · rw [if_pos hc, if_pos hc]
          have hd := dropWhile_length_le Char.isDigit rest
          rw [ih (rest.dropWhile Char.isDigit) f₂ (by omega) (by omega)]
        · rw [if_neg hc, if_neg hc, ih rest f₂ (by omega) (by omega)]

theorem runLengthDecode_nil : runLengthDecode [] = [] := rfl

/-- The natural recurrence of `runLengthDecode`. -/
theorem runLengthDecode_cons (c : Char) (rest : List Char) :
    runLengthDecode (c :: rest) =
      if c = '.' ∧ headIsDigit rest then
        List.replicate (digitsToNat (rest.takeWhile Char.isDigit)) '.' ++
          runLengthDecode (rest.dropWhile Char.isDigit)
      else c :: runLengthDecode rest := by
  unfold runLengthDecode
  rw [show (c :: rest).length = rest.length + 1 from rfl, runLengthDecodeAux]
  by_cases hc : c = '.' ∧ headIsDigit rest
  · rw [if_pos hc, if_pos hc]
    have hd := dropWhile_length_le Char.isDigit rest
    rw [runLengthDecodeAux_fuel rest.length (rest.dropWhile Char.isDigit)
      (rest.dropWhile Char.isDigit).length (by omega) (by omega)]
  · rw [if_neg hc, if_neg hc]

theorem rleEmit_head (cur : Char) (k : ℕ) (h : 1 ≤ k) :
    (rleEmit cur k).head? = some cur := by
  unfold rleEmit
  split
  · rename_i hc
    rw [hc.1]
    rfl
  · cases k with
    | zero => omega
    | succ k => rfl

theorem rleGo_head : ∀ rest : List Char, ∀ cur : Char, ∀ k : ℕ, 1 ≤ k →
    (rleGo cur k rest).head? = some cur := by
  intro rest
  induction rest with
  | nil => intro cur k hk; exact rleEmit_head cur k hk
  | cons c rest ih =>
    intro cur k hk
    rw [rleGo]
    split
    · rename_i hc
      rw [ih cur (k + 1) (by omega)]
    · rw [List.head?_append_of_ne_nil]
      · exact rleEmit_head cur k hk
      · intro hnil
        have := rleEmit_head cur k hk
        rw [hnil] at this
        exact Option.noConfusion this

theorem rld_replicate_nondot {c : Char} (hc : c ≠ '.') : ∀ k : ℕ, ∀ tail : List Char,
    runLengthDecode (List.replicate k c ++ tail) =
      List.replicate k c ++ runLengthDecode tail := by
  intro k
  induction k with
  | zero => intro tail; simp
  | succ k ih =>
    intro tail
    rw [List.replicate_succ, List.cons_append, runLengthDecode_cons,
      if_neg (by intro h; exact hc h.1), ih tail]
    rfl

theorem rld_replicate_dot : ∀ k : ℕ, ∀ tail : List Char, headIsDigit tail = false →
    runLengthDecode (List.replicate k '.' ++ tail) =
      List.replicate k '.' ++ runLengthDecode tail := by
  intro k
  induction k with
  | zero => intro tail _; simp
  | succ k ih =>
    intro tail ht
    rw [List.replicate_succ, List.cons_append, runLengthDecode_cons, if_neg, ih tail ht]
    · rfl
    · intro h
      have h2 := h.2
      cases k with
      | zero => simp at h2; rw [ht] at h2; exact Bool.noConfusion h2
      | succ k =>
        rw [List.replicate_succ, List.cons_append] at h2
        have h3 : ('.').isDigit = true := h2
        exact absurd h3 (by decide)

theorem takeWhile_digit_nil {t : List Char} (ht : headIsDigit t = false) :
    t.takeWhile Char.isDigit = [] := by
  cases t with
  | nil => rfl
  | cons a t =>
    have : a.isDigit = false := ht
    simp [List.takeWhile_cons, this]

theorem dropWhile_digit_self {t : List Char} (ht : headIsDigit t = false) :
    t.dropWhile Char.isDigit = t := by
  cases t with
  | nil => rfl
  | cons a t =>
    have : a.isDigit = false := ht
    simp [List.dropWhile_cons, this]

theorem rld_dot_digits {ds : List Char} (tail : List Char) (hne : ds ≠ [])
    (hdig : ∀ c ∈ ds, c.isDigit = true) (ht : headIsDigit tail = false) :
    runLengthDecode ('.' :: ds ++ tail) =
      List.replicate (digitsToNat ds) '.' ++ runLengthDecode tail := by
  rw [show ('.' :: ds ++ tail) = '.' :: (ds ++ tail) from rfl, runLengthDecode_cons, if_pos]
  · rw [takeWhile_append_all tail hdig, takeWhile_digit_nil ht, List.append_nil,
      dropWhile_append_all tail hdig, dropWhile_digit_self ht]
  · refine ⟨rfl, ?_⟩
    cases ds with
    | nil => exact absurd rfl hne
    | cons d ds => exact hdig d (by simp)

theorem rld_rleEmit {cur : Char} (k : ℕ) (tail : List Char) (hcur : cur.isDigit = false)
    (ht : headIsDigit tail = false) :
    runLengthDecode (rleEmit cur k ++ tail) =
      List.replicate k cur ++ runLengthDecode tail := by
  unfold rleEmit
  split
  · rename_i hc
    rw [hc.1,
      rld_dot_digits tail (natToChars_ne_nil k) (natToChars_all_digit k) ht,
      digitsToNat_natToChars]
  · rename_i hc
    by_cases hdot : cur = '.'
    · rw [hdot]
      exact rld_replicate_dot k tail ht
    · exact rld_replicate_nondot hdot k tail

theorem rld_rleGo : ∀ rest : List Char, ∀ cur : Char, ∀ k : ℕ, cur.isDigit = false →
    (∀ c ∈ rest, c.isDigit = false) →
    runLengthDecode (rleGo cur k rest) = List.replicate k cur ++ rest := by
  intro rest
  induction rest with
  | nil =>
    intro cur k hcur _
    rw [rleGo, show rleEmit cur k = rleEmit cur k ++ [] by simp,
      rld_rleEmit k [] hcur rfl]
    simp [runLengthDecode_nil]
  | cons c rest ih =>
    intro cur k hcur hrest
    rw [rleGo]
    split
    · rename_i hc
      rw [ih cur (k + 1) hcur (fun a ha => hrest a (by simp [ha])), List.replicate_succ',
        List.append_assoc, hc.1]
      simp
    · rename_i hc
      have hcd : c.isDigit = false := hrest c (by simp)
      have hhead : headIsDigit (rleGo c 1 rest) = false := by
        apply headIsDigit_of_head
        intro a ha
        rw [rleGo_head rest c 1 (by omega)] at ha
        cases ha
        exact hcd
      rw [rld_rleEmit k (rleGo c 1 rest) hcur hhead,
        ih c 1 hcd (fun a ha => hrest a (by simp [ha]))]
      simp

/-- Round trip of the empty-run compression on digit-free strings (every
string over the tile alphabet is digit-free). -/
theorem rld_rle (s : List Char) (h : ∀ c ∈ s, c.isDigit = false) :
    runLengthDecode (runLengthEncode s) = s := by
  cases s with
  | nil => rfl
  | cons c rest =>
    rw [runLengthEncode, rld_rleGo rest c 1 (h c (by simp)) (fun a ha => h a (by simp [ha]))]
    rfl

theorem rleGo_append_right : ∀ a : List Char, ∀ cur : Char, ∀ k : ℕ, ∀ b : List Char,
    (∀ c, b.head? = some c → c ≠ '.') →
    rleGo cur k (a ++ b) = rleGo cur k a ++ runLengthEncode b := by
  intro a
  induction a with
  | nil =>
    intro cur k b hb
    cases b with
    | nil =>
      simp only [List.nil_append, show runLengthEncode ([] : List Char) = [] from rfl,
        List.append_nil]
    | cons c rest =>
      rw [List.nil_append, rleGo, rleGo, if_neg]
      · rfl
      · intro h
        exact hb c rfl (h.1.trans h.2)
  | cons x a ih =>
    intro cur k b hb
    rw [List.cons_append, rleGo, rleGo]
    split
    · exact ih cur (k + 1) b hb
    · rw [ih x 1 b hb, List.append_assoc]

theorem rle_append_right (a b : List Char) (hb : ∀ c, b.head? = some c → c ≠ '.') :
    runLengthEncode (a ++ b) = runLengthEncode a ++ runLengthEncode b := by
  cases a with
  | nil => simp [show runLengthEncode ([] : List Char) = [] from rfl]
  | cons x a =>
    rw [List.cons_append, runLengthEncode, runLengthEncode, rleGo_append_right a x 1 b hb]

theorem rleGo_append_left : ∀ a : List Char, ∀ cur : Char, ∀ k : ℕ, ∀ b : List Char,
    a.getLastD cur ≠ '.' →
    rleGo cur k (a ++ b) = rleGo cur k a ++ runLengthEncode b := by
  intro a
  induction a with
  | nil =>
    intro cur k b hlast
    simp only [List.getLastD_nil] at hlast
    cases b with
    | nil =>
      simp only [List.nil_append, show runLengthEncode ([] : List Char) = [] from rfl,
        List.append_nil]
    | cons c rest =>
      rw [List.nil_append, rleGo, rleGo, if_neg]
      · rfl
      · intro h
        exact hlast h.2
  | cons x a ih =>
    intro cur k b hlast
    rw [List.getLastD_cons] at hlast
    rw [List.cons_append, rleGo, rleGo]
    split
    · rename_i h
      rw [← h.1]
      exact ih x (k + 1) b hlast
    · rw [ih x 1 b hlast, List.append_assoc]

theorem rle_append_left (a b : List Char) (ha : ∀ l, a.getLast? = some l → l ≠ '.') :
    runLengthEncode (a ++ b) = runLengthEncode a ++ runLengthEncode b := by
  cases a with
  | nil => simp [show runLengthEncode ([] : List Char) = [] from rfl]
  | cons x a =>
    rw [List.cons_append, runLengthEncode, runLengthEncode, rleGo_append_left a x 1 b]
    have : (x :: a).getLast? = some (a.getLastD x) := by
      rw [List.getLast?_cons, List.getLastD_eq_getLast?]
    exact ha _ this

theorem rleGo_replicate_dot : ∀ m k : ℕ, rleGo '.' k (List.replicate m '.') = rleEmit '.' (k + m) := by
  intro m
  induction m with
  | zero => intro k; rfl
  | succ m ih =>
    intro k
    rw [List.replicate_succ, rleGo, if_pos ⟨rfl, rfl⟩, ih (k + 1)]
    congr 1
    omega

theorem rle_replicate_dot (n : ℕ) (h : 1 ≤ n) :
    runLengthEncode (List.replicate n '.') = rleEmit '.' n := by
  cases n with
  | zero => omega
  | succ n =>
    rw [List.replicate_succ, runLengthEncode, rleGo_replicate_dot n 1]
    congr 1
    omega

theorem rle_replicate_nondot {c : Char} (hc : c ≠ '.') : ∀ n : ℕ,
    runLengthEncode (List.replicate n c) = List.replicate n c := by
  have go : ∀ m : ℕ, rleGo c 1 (List.replicate m c) = List.replicate (m + 1) c := by
    intro m
    induction m with
    | zero => simp [rleGo, rleEmit, hc]
    | succ m ih =>
      rw [List.replicate_succ, rleGo, if_neg (fun h => hc h.2), ih]
      rw [show rleEmit c 1 = [c] by simp [rleEmit, hc]]
      rw [show (m + 1) + 1 = (m + 2) from rfl, List.replicate_succ]
      rfl
  intro n
  cases n with
  | zero => rfl
  | succ n =>
    rw [List.replicate_succ, runLengthEncode, go n]
    rfl

/-- The compression of one maximal `'.'`-run in context: a run of `n`
empties bounded by a non-`'.'` character (or the string edge) on either
side compresses independently of its context, to `'.'` plus the decimal
count when `n > 2` and to the literal run otherwise. -/
theorem rle_maximal_run (pre suf : List Char) (n : ℕ) (hn : 1 ≤ n)
    (hpre : ∀ l, pre.getLast? = some l → l ≠ '.')
    (hsuf : ∀ c, suf.head? = some c → c ≠ '.') :
    runLengthEncode (pre ++ List.replicate n '.' ++ suf) =
      runLengthEncode pre ++
        (if 2 < n then '.' :: natToChars n else List.replicate n '.') ++
        runLengthEncode suf := by
  rw [List.append_assoc, rle_append_left pre _ hpre,
    rle_append_right (List.replicate n '.') suf hsuf,
    rle_replicate_dot n hn]
  rw [show rleEmit '.' n = if 2 < n then '.' :: natToChars n else List.replicate n '.' by
    unfold rleEmit
    by_cases h2 : 2 < n
    · rw [if_pos ⟨rfl, h2⟩, if_pos h2]
    · rw [if_neg (fun h => h2 h.2), if_neg h2]]
  rw [List.append_assoc]

/-! ## Base64 lemmas -/

theorem char_ofNat_toNat_self (c : Char) : Char.ofNat c.toNat = c := by
  unfold Char.ofNat
  rw [dif_pos (by unfold Char.toNat; exact c.valid)]
  unfold Char.ofNatAux Char.toNat
  apply Char.ext
  apply UInt32.ext
  simp [UInt32.toNat]

theorem b64Val_b64c : ∀ s : ℕ, s < 64 → b64Val (b64c s) = some s := by decide

theorem fromUrl_toUrl_b64c : ∀ s : ℕ, s < 64 → fromUrlChar (toUrlChar (b64c s)) = b64c s := by
  decide

theorem b64_core_roundtrip : ∀ bytes : List ℕ, (∀ b ∈ bytes, b < 256) →
    sextetsToBytes ((bytesToB64 bytes).filterMap b64Val) = bytes
  | [], _ => rfl
  | [b0], h => by
    have h0 : b0 < 256 := h b0 (by simp)
    show sextetsToBytes (List.filterMap b64Val [b64c (b0 / 4), b64c (b0 % 4 * 16)]) = [b0]
    rw [List.filterMap_cons_some (b64Val_b64c (b0 / 4) (by omega)),
      List.filterMap_cons_some (b64Val_b64c (b0 % 4 * 16) (by omega)),
      List.filterMap_nil]
    show [b0 / 4 * 4 + b0 % 4 * 16 / 16] = [b0]
    congr 1
    omega
  | [b0, b1], h => by
    have h0 : b0 < 256 := h b0 (by simp)
    have h1 : b1 < 256 := h b1 (by simp)
    show sextetsToBytes (List.filterMap b64Val
      [b64c (b0 / 4), b64c (b0 % 4 * 16 + b1 / 16), b64c (b1 % 16 * 4)]) = [b0, b1]
    rw [List.filterMap_cons_some (b64Val_b64c (b0 / 4) (by omega)),
      List.filterMap_cons_some (b64Val_b64c (b0 % 4 * 16 + b1 / 16) (by omega)),
      List.filterMap_cons_some (b64Val_b64c (b1 % 16 * 4) (by omega)),
      List.filterMap_nil]
    show [b0 / 4 * 4 + (b0 % 4 * 16 + b1 / 16) / 16,
      (b0 % 4 * 16 + b1 / 16) % 16 * 16 + b1 % 16 * 4 / 4] = [b0, b1]
    congr 1
    · omega
    · congr 1
      omega
  | b0 :: b1 :: b2 :: b3 :: rest, h => by
    have h0 : b0 < 256 := h b0 (by simp)
    have h1 : b1 < 256 := h b1 (by simp)
    have h2 : b2 < 256 := h b2 (by simp)
    have ih := b64_core_roundtrip (b3 :: rest) (fun b hb => h b (by simp at hb ⊢; tauto))
    show sextetsToBytes (List.filterMap b64Val
      (b64c (b0 / 4) :: b64c (b0 % 4 * 16 + b1 / 16) ::
        b64c (b1 % 16 * 4 + b2 / 64) :: b64c (b2 % 64) :: bytesToB64 (b3 :: rest))) = _
    rw [List.filterMap_cons_some (b64Val_b64c (b0 / 4) (by omega)),
      List.filterMap_cons_some (b64Val_b64c (b0 % 4 * 16 + b1 / 16) (by omega)),
      List.filterMap_cons_some (b64Val_b64c (b1 % 16 * 4 + b2 / 64) (by omega)),
      List.filterMap_cons_some (b64Val_b64c (b2 % 64) (by omega))]
    show (b0 / 4 * 4 + (b0 % 4 * 16 + b1 / 16) / 16) ::
      ((b0 % 4 * 16 + b1 / 16) % 16 * 16 + (b1 % 16 * 4 + b2 / 64) / 4) ::
      ((b1 % 16 * 4 + b2 / 64) % 4 * 64 + b2 % 64) ::
      sextetsToBytes ((bytesToB64 (b3 :: rest)).filterMap b64Val) = _
    rw [ih]
    congr 1
    · omega
    congr 1
    · omega
    congr 1
    omega
  | [b0, b1, b2], h => by
    have h0 : b0 < 256 := h b0 (by simp)
    have h1 : b1 < 256 := h b1 (by simp)
    have h2 : b2 < 256 := h b2 (by simp)
    show sextetsToBytes (List.filterMap b64Val
      [b64c (b0 / 4), b64c (b0 % 4 * 16 + b1 / 16),
        b64c (b1 % 16 * 4 + b2 / 64), b64c (b2 % 64)]) = _
    rw [List.filterMap_cons_some (b64Val_b64c (b0 / 4) (by omega)),
      List.filterMap_cons_some (b64Val_b64c (b0 % 4 * 16 + b1 / 16) (by omega)),
      List.filterMap_cons_some (b64Val_b64c (b1 % 16 * 4 + b2 / 64) (by omega)),
      List.filterMap_cons_some (b64Val_b64c (b2 % 64) (by omega)),
      List.filterMap_nil]
    show [b0 / 4 * 4 + (b0 % 4 * 16 + b1 / 16) / 16,
      (b0 % 4 * 16 + b1 / 16) % 16 * 16 + (b1 % 16 * 4 + b2 / 64) / 4,
      (b1 % 16 * 4 + b2 / 64) % 4 * 64 + b2 % 64] = [b0, b1, b2]
    congr 1
    · omega
    · congr 1
      · omega
      · congr 1
        omega

theorem b64map_id : ∀ bytes : List ℕ, (∀ b ∈ bytes, b < 256) →
    (bytesToB64 bytes).map (fromUrlChar ∘ toUrlChar) = bytesToB64 bytes
  | [], _ => rfl
  | [b0], h => by
    have h0 : b0 < 256 := h b0 (by simp)
    show [(fromUrlChar ∘ toUrlChar) (b64c (b0 / 4)),
      (fromUrlChar ∘ toUrlChar) (b64c (b0 % 4 * 16))] = _
    simp only [Function.comp_apply]
    rw [fromUrl_toUrl_b64c (b0 / 4) (by omega), fromUrl_toUrl_b64c (b0 % 4 * 16) (by omega)]
    rfl
  | [b0, b1], h => by
    have h0 : b0 < 256 := h b0 (by simp)
    have h1 : b1 < 256 := h b1 (by simp)
    show [(fromUrlChar ∘ toUrlChar) (b64c (b0 / 4)),
      (fromUrlChar ∘ toUrlChar) (b64c (b0 % 4 * 16 + b1 / 16)),
      (fromUrlChar ∘ toUrlChar) (b64c (b1 % 16 * 4))] = _
    simp only [Function.comp_apply]
    rw [fromUrl_toUrl_b64c (b0 / 4) (by omega),
      fromUrl_toUrl_b64c (b0 % 4 * 16 + b1 / 16) (by omega),
      fromUrl_toUrl_b64c (b1 % 16 * 4) (by omega)]
    rfl
  | b0 :: b1 :: b2 :: b3 :: rest, h => by
    have h0 : b0 < 256 := h b0 (by simp)
    have h1 : b1 < 256 := h b1 (by simp)
    have h2 : b2 < 256 := h b2 (by simp)
    have ih := b64map_id (b3 :: rest) (fun b hb => h b (by simp at hb ⊢; tauto))
    show (fromUrlChar ∘ toUrlChar) (b64c (b0 / 4)) ::
      (fromUrlChar ∘ toUrlChar) (b64c (b0 % 4 * 16 + b1 / 16)) ::
      (fromUrlChar ∘ toUrlChar) (b64c (b1 % 16 * 4 + b2 / 64)) ::
      (fromUrlChar ∘ toUrlChar) (b64c (b2 % 64)) ::
      (bytesToB64 (b3 :: rest)).map (fromUrlChar ∘ toUrlChar) = _
    simp only [Function.comp_apply]
    rw [fromUrl_toUrl_b64c (b0 / 4) (by omega),
      fromUrl_toUrl_b64c (b0 % 4 * 16 + b1 / 16) (by omega),
      fromUrl_toUrl_b64c (b1 % 16 * 4 + b2 / 64) (by omega),
      fromUrl_toUrl_b64c (b2 % 64) (by omega), ih]
    rfl
  | [b0, b1, b2], h => by
    have h0 : b0 < 256 := h b0 (by simp)
    have h1 : b1 < 256 := h b1 (by simp)
    have h2 : b2 < 256 := h b2 (by simp)
    show (fromUrlChar ∘ toUrlChar) (b64c (b0 / 4)) ::
      (fromUrlChar ∘ toUrlChar) (b64c (b0 % 4 * 16 + b1 / 16)) ::
      (fromUrlChar ∘ toUrlChar) (b64c (b1 % 16 * 4 + b2 / 64)) ::
      (fromUrlChar ∘ toUrlChar) (b64c (b2 % 64)) ::
      (bytesToB64 []).map (fromUrlChar ∘ toUrlChar) = _
    simp only [Function.comp_apply]
    rw [fromUrl_toUrl_b64c (b0 / 4) (by omega),
      fromUrl_toUrl_b64c (b0 % 4 * 16 + b1 / 16) (by omega),
      fromUrl_toUrl_b64c (b1 % 16 * 4 + b2 / 64) (by omega),
      fromUrl_toUrl_b64c (b2 % 64) (by omega)]
    rfl

/-- The URL-safe base64 of the sources round-trips on byte sequences. -/
theorem b64url_roundtrip (bytes : List ℕ) (h : ∀ b ∈ bytes, b < 256) :
    b64urlToBytes (b64urlOfBytes bytes) = bytes := by
  unfold b64urlToBytes b64urlOfBytes
  rw [List.map_map, b64map_id bytes h, b64_core_roundtrip bytes h]

/-! ## UTF-8 lemmas (only the ASCII fragment is ever exercised by the codec) -/

theorem utf8DecodeStep_consumes (b : ℕ) (rest : List ℕ) :
    1 ≤ (utf8DecodeStep b rest).2 := by
  unfold utf8DecodeStep
  split
  · omega
  repeat'
    first
    | omega
    | split

theorem utf8DecodeAux_fuel : ∀ fuel₁ : ℕ, ∀ bs : List ℕ, ∀ fuel₂ : ℕ,
    bs.length ≤ fuel₁ → bs.length ≤ fuel₂ →
    utf8DecodeAux fuel₁ bs = utf8DecodeAux fuel₂ bs := by
  intro fuel₁
  induction fuel₁ with
  | zero =>
    intro bs fuel₂ h₁ _
    have : bs = [] := by
      cases bs with
      | nil => rfl
      | cons b r => simp at h₁
    subst this
    cases fuel₂ <;> rfl
  | succ f₁ ih =>
    intro bs fuel₂ h₁ h₂
    cases bs with
    | nil => cases fuel₂ <;> rfl
    | cons b rest =>
      match fuel₂ with
      | f₂ + 1 =>
        rw [utf8DecodeAux, utf8DecodeAux]
        simp only [List.length_cons] at h₁ h₂
        have hd : (rest.drop ((utf8DecodeStep b rest).2 - 1)).length ≤ rest.length := by
          rw [List.length_drop]
          omega
        rw [ih (rest.drop ((utf8DecodeStep b rest).2 - 1)) f₂ (by omega) (by omega)]

theorem utf8Encode_ascii (s : List Char) (h : ∀ c ∈ s, c.toNat < 128) :
    utf8Encode s = s.map Char.toNat := by
  induction s with
  | nil => rfl
  | cons c s ih =>
    unfold utf8Encode at ih ⊢
    rw [List.map_cons, List.flatten_cons, ih (fun a ha => h a (by simp [ha])),
      show utf8EncodeChar c = [c.toNat] by unfold utf8EncodeChar; rw [if_pos (h c (by simp))]]
    rfl

theorem utf8Encode_lt_256 (s : List Char) : ∀ b ∈ utf8Encode s, b < 256 := by
  induction s with
  | nil => simp [utf8Encode]
  | cons c s ih =>
    unfold utf8Encode at ih ⊢
    rw [List.map_cons, List.flatten_cons]
    intro b hb
    rw [List.mem_append] at hb
    rcases hb with hb | hb
    · have hval := char_toNat_lt c
      unfold utf8EncodeChar at hb
      by_cases h1 : c.toNat < 128
      · rw [if_pos h1] at hb
        simp only [List.mem_singleton] at hb
        omega
      · rw [if_neg h1] at hb
        by_cases h2 : c.toNat < 2048
        · rw [if_pos h2] at hb
          simp only [List.mem_cons, List.mem_singleton, List.not_mem_nil, or_false] at hb
          rcases hb with rfl | rfl <;> omega
        · rw [if_neg h2] at hb
          by_cases h3 : c.toNat < 65536
          · rw [if_pos h3] at hb
            simp only [List.mem_cons, List.mem_singleton, List.not_mem_nil, or_false] at hb
            rcases hb with rfl | rfl | rfl <;> omega
          · rw [if_neg h3] at hb
            simp only [List.mem_cons, List.mem_singleton, List.not_mem_nil, or_false] at hb
            rcases hb with rfl | rfl | rfl | rfl <;> omega
    · exact ih b hb

theorem utf8Decode_ascii (bs : List ℕ) (h : ∀ b ∈ bs, b < 128) :
    utf8Decode bs = bs.map Char.ofNat := by
  unfold utf8Decode
  induction bs with
  | nil => rfl
  | cons b rest ih =>
    rw [show (b :: rest).length = rest.length + 1 from rfl, utf8DecodeAux]
    have hb : b < 128 := h b (by simp)
    have hstep : utf8DecodeStep b rest = (Char.ofNat b, 1) := by
      unfold utf8DecodeStep
      rw [if_pos hb]
    simp only [hstep, Nat.sub_self, List.drop_zero]
    rw [ih (fun a ha => h a (by simp [ha]))]
    rfl

/-- Decoding the UTF-8 bytes of an ASCII string gives the string back. -/
theorem utf8_roundtrip_ascii (s : List Char) (h : ∀ c ∈ s, c.toNat < 128) :
    utf8Decode (utf8Encode s) = s := by
  rw [utf8Encode_ascii s h, utf8Decode_ascii (s.map Char.toNat)
    (by intro b hb; rw [List.mem_map] at hb; obtain ⟨c, hc, rfl⟩ := hb; exact h c hc),
    List.map_map]
  have : ∀ c ∈ s, (Char.ofNat ∘ Char.toNat) c = id c := fun c _ =>
    char_ofNat_toNat_self c
  rw [List.map_congr_left this, List.map_id]

/-- The full text round trip of the server codec on ASCII payloads. -/
theorem base64url_roundtrip_ascii (s : List Char) (h : ∀ c ∈ s, c.toNat < 128) :
    base64urlDecode (base64urlEncode s) = s := by
  unfold base64urlDecode base64urlEncode
  rw [b64url_roundtrip (utf8Encode s) (utf8Encode_lt_256 s), utf8_roundtrip_ascii s h]

/-! ## Tile table and grid reconstruction lemmas -/

theorem tileOfChar_le_7 (c : Char) : tileOfChar c ≤ 7 := by
  unfold tileOfChar charTiles
  repeat' split
  all_goals simp

theorem tileOfChar_dot : tileOfChar '.' = 0 := rfl

theorem charOfTile_big (t : ℕ) : charOfTile (t + 8) = '.' := rfl

theorem tile_norm (t : ℕ) : tileOfChar (charOfTile t) = normalizeTile t := by
  by_cases h : t ≤ 7
  · interval_cases t <;> rfl
  · obtain ⟨u, rfl⟩ : ∃ u, t = u + 8 := ⟨t - 8, by omega⟩
    rw [charOfTile_big, tileOfChar_dot]
    unfold normalizeTile
    rw [if_neg h]

theorem tile_norm_id {t : ℕ} (h : t ≤ 7) : normalizeTile t = t := by
  unfold normalizeTile
  rw [if_pos h]

theorem charOfTile_toNat_lt_128 (t : ℕ) : (charOfTile t).toNat < 128 := by
  by_cases h : t ≤ 7
  · interval_cases t <;> decide
  · obtain ⟨u, rfl⟩ : ∃ u, t = u + 8 := ⟨t - 8, by omega⟩
    rw [charOfTile_big]
    decide

theorem charOfTile_not_digit (t : ℕ) : (charOfTile t).isDigit = false := by
  by_cases h : t ≤ 7
  · interval_cases t <;> decide
  · obtain ⟨u, rfl⟩ : ∃ u, t = u + 8 := ⟨t - 8, by omega⟩
    rw [charOfTile_big]
    decide

theorem decodeTiles_length (w : ℕ) : ∀ h : ℕ, ∀ s : List Char,
    (decodeTiles w h s).length = h := by
  intro h
  induction h with
  | zero => intro s; rfl
  | succ h ih =>
    intro s
    rw [decodeTiles, List.length_cons, ih (s.drop w)]

theorem decodeTiles_rows (w : ℕ) : ∀ h : ℕ, ∀ s : List Char,
    ∀ row ∈ decodeTiles w h s, row.length = w := by
  intro h
  induction h with
  | zero => intro s row hr; exact absurd hr (by simp [decodeTiles])
  | succ h ih =>
    intro s row hr
    rw [decodeTiles] at hr
    rcases List.mem_cons.mp hr with rfl | hr
    · simp
    · exact ih (s.drop w) row hr

theorem decodeTiles_entries (w : ℕ) : ∀ h : ℕ, ∀ s : List Char,
    ∀ row ∈ decodeTiles w h s, ∀ t ∈ row, t ≤ 7 := by
  intro h
  induction h with
  | zero => intro s row hr; exact absurd hr (by simp [decodeTiles])
  | succ h ih =>
    intro s row hr
    rw [decodeTiles] at hr
    rcases List.mem_cons.mp hr with rfl | hr
    · intro t ht
      rw [List.mem_map] at ht
      obtain ⟨x, _, rfl⟩ := ht
      exact tileOfChar_le_7 _
    · exact ih (s.drop w) row hr

/-- Reading back `width` characters per row from the flattened row-major
string reproduces the grid (up to the per-tile normalization). -/
theorem decodeTiles_roundtrip : ∀ grid : List (List ℕ), ∀ w : ℕ,
    (∀ row ∈ grid, row.length = w) →
    decodeTiles w grid.length (flatTileChars grid) = grid.map (List.map normalizeTile) := by
  intro grid
  induction grid with
  | nil => intro w _; rfl
  | cons row grid ih =>
    intro w hw
    have hrow : row.length = w := hw row (by simp)
    have hflat : flatTileChars (row :: grid) =
        row.map charOfTile ++ flatTileChars grid := by
      unfold flatTileChars
      rw [List.map_cons, List.flatten_cons]
    rw [List.length_cons, decodeTiles, hflat, List.map_cons]
    congr 1
    · apply List.ext_getElem?
      intro n
      rw [List.getElem?_map, List.getElem?_map]
      by_cases hn : n < w
      · have hn' : n < row.length := by omega
        rw [List.getElem?_range hn, List.getElem?_eq_getElem hn']
        simp only [Option.map_some']
        rw [Option.some_inj]
        rw [List.getD_eq_getElem?_getD, List.getElem?_append,
          if_pos (by rw [List.length_map]; omega), List.getElem?_map,
          List.getElem?_eq_getElem hn']
        simp only [Option.map_some', Option.getD_some]
        exact tile_norm _
      · rw [List.getElem?_eq_none (by rw [List.length_range]; omega),
          List.getElem?_eq_none (by rw [hrow]; omega)]
        rfl
    · rw [List.drop_left' (by simp [hrow]), ih w (fun r hr => hw r (by simp [hr]))]

/-! ## Parameter-block lemmas -/

theorem parseInt_natToChars (n : ℕ) (rest : List Char) (hrest : headIsDigit rest = false) :
    parseInt (natToChars n ++ rest) = some ((n : ℤ), rest) := by
  obtain ⟨c, cs, hcs⟩ : ∃ c cs, natToChars n = c :: cs := by
    cases hnc : natToChars n with
    | nil => exact absurd hnc (natToChars_ne_nil n)
    | cons c cs => exact ⟨c, cs, rfl⟩
  have hcd : c.isDigit = true := natToChars_all_digit n c (by rw [hcs]; simp)
  rw [hcs, List.cons_append, parseInt, if_neg (ne_of_isDigit hcd (by decide)),
    ← List.cons_append, ← hcs,
    takeWhile_append_all rest (natToChars_all_digit n), takeWhile_digit_nil hrest,
    List.append_nil,
    dropWhile_append_all rest (natToChars_all_digit n), dropWhile_digit_self hrest,
    if_neg (natToChars_ne_nil n), digitsToNat_natToChars]

theorem parseInt_intToChars (v : ℤ) (rest : List Char) (hrest : headIsDigit rest = false) :
    parseInt (intToChars v ++ rest) = some (v, rest) := by
  unfold intToChars
  by_cases hv : v < 0
  · rw [if_pos hv, List.cons_append, parseInt, if_pos rfl,
      takeWhile_append_all rest (natToChars_all_digit (-v).toNat),
      takeWhile_digit_nil hrest, List.append_nil,
      dropWhile_append_all rest (natToChars_all_digit (-v).toNat),
      dropWhile_digit_self hrest,
      if_neg (natToChars_ne_nil (-v).toNat), digitsToNat_natToChars]
    congr 1
    congr 1
    rw [Int.toNat_of_nonneg (by omega)]
    omega
  · rw [if_neg hv, parseInt_natToChars v.toNat rest hrest]
    congr 2
    rw [Int.toNat_of_nonneg (by omega)]

theorem quote_notin_of_digitfree {k : List Char} (h : ∀ c ∈ k, c ≠ '"') :
    ∀ a ∈ k, (fun c => decide (c ≠ '"')) a = true := by
  intro a ha
  simp [h a ha]

theorem parseMembers_last (k : List Char) (v : ℤ) (fuel : ℕ) (hk : ∀ c ∈ k, c ≠ '"') :
    parseMembers (fuel + 1) ('"' :: k ++ '"' :: ':' :: intToChars v ++ ['}']) =
      some [(k, v)] := by
  have hshape : '"' :: k ++ '"' :: ':' :: intToChars v ++ ['}'] =
      '"' :: (k ++ '"' :: ':' :: (intToChars v ++ ['}'])) := by
    simp [List.append_assoc]
  rw [hshape]
  rw [show parseMembers (fuel + 1) ('"' :: (k ++ '"' :: ':' :: (intToChars v ++ ['}']))) =
    parseMemberStep (parseMembers fuel) ('"' :: (k ++ '"' :: ':' :: (intToChars v ++ ['}'])))
    from rfl]
  rw [parseMemberStep.eq_def]
  simp only
  rw [if_pos trivial,
    takeWhile_append_all _ (quote_notin_of_digitfree hk),
    takeWhile_eq_nil_of_head (by intro a ha; cases ha; simp), List.append_nil,
    dropWhile_append_all _ (quote_notin_of_digitfree hk),
    dropWhile_eq_self_of_head (by intro a ha; cases ha; simp)]
  simp only
  rw [if_pos ⟨trivial, trivial⟩, parseInt_intToChars v ['}'] rfl]
  simp only
  rw [if_neg (by decide), if_pos ⟨trivial, trivial⟩]

theorem parseMembers_cons (k : List Char) (v : ℤ) (fuel : ℕ) (rest : List Char)
    (hk : ∀ c ∈ k, c ≠ '"') :
    parseMembers (fuel + 1) ('"' :: k ++ '"' :: ':' :: intToChars v ++ ',' :: rest) =
      match parseMembers fuel rest with
      | some kvs => some ((k, v) :: kvs)
      | none => none := by
  have hshape : '"' :: k ++ '"' :: ':' :: intToChars v ++ ',' :: rest =
      '"' :: (k ++ '"' :: ':' :: (intToChars v ++ ',' :: rest)) := by
    simp [List.append_assoc]
  rw [hshape]
  rw [show parseMembers (fuel + 1)
      ('"' :: (k ++ '"' :: ':' :: (intToChars v ++ ',' :: rest))) =
    parseMemberStep (parseMembers fuel)
      ('"' :: (k ++ '"' :: ':' :: (intToChars v ++ ',' :: rest)))
    from rfl]
  rw [parseMemberStep.eq_def]
  simp only
  rw [if_pos trivial,
    takeWhile_append_all _ (quote_notin_of_digitfree hk),
    takeWhile_eq_nil_of_head (by intro a ha; cases ha; simp), List.append_nil,
    dropWhile_append_all _ (quote_notin_of_digitfree hk),
    dropWhile_eq_self_of_head (by intro a ha; cases ha; simp)]
  simp only
  rw [if_pos ⟨trivial, trivial⟩, parseInt_intToChars v (',' :: rest) rfl]
  simp only
  rw [if_pos trivial]

theorem membersStr_single (kv : List Char × ℤ) :
    membersStr [kv] = '"' :: kv.1 ++ '"' :: ':' :: intToChars kv.2 ++ ['}'] := by
  unfold membersStr joinComma memberChars
  simp [List.append_assoc]

theorem joinComma_cons₂ (m₁ m₂ : List Char) (ms : List (List Char)) :
    joinComma (m₁ :: m₂ :: ms) = m₁ ++ ',' :: joinComma (m₂ :: ms) := rfl

theorem membersStr_cons (kv kv₂ : List Char × ℤ) (kvs : List (List Char × ℤ)) :
    membersStr (kv :: kv₂ :: kvs) =
      '"' :: kv.1 ++ '"' :: ':' :: intToChars kv.2 ++ ',' :: membersStr (kv₂ :: kvs) := by
  unfold membersStr
  rw [List.map_cons, List.map_cons, joinComma_cons₂]
  unfold memberChars
  simp [List.append_assoc]

theorem membersStr_length : ∀ kvs : List (List Char × ℤ),
    kvs.length ≤ (membersStr kvs).length := by
  intro kvs
  induction kvs with
  | nil => simp [membersStr, joinComma]
  | cons kv kvs ih =>
    cases kvs with
    | nil => simp [membersStr, joinComma]
    | cons kv₂ kvs' =>
      rw [membersStr_cons]
      simp only [List.length_cons, List.length_append] at ih ⊢
      omega

theorem parseMembers_membersStr : ∀ kvs : List (List Char × ℤ), ∀ fuel : ℕ,
    kvs ≠ [] → kvs.length ≤ fuel →
    (∀ kv ∈ kvs, ∀ c ∈ kv.1, c ≠ '"') →
    parseMembers fuel (membersStr kvs) = some kvs := by
  intro kvs
  induction kvs with
  | nil => intro fuel h; exact absurd rfl h
  | cons kv kvs ih =>
    intro fuel _ hlen hk
    match fuel with
    | f + 1 =>
      cases kvs with
      | nil =>
        rw [membersStr_single, parseMembers_last kv.1 kv.2 f (hk kv (by simp) )]
      | cons kv₂ kvs' =>
        rw [membersStr_cons,
          parseMembers_cons kv.1 kv.2 f (membersStr (kv₂ :: kvs')) (hk kv (by simp)),
          ih f (by simp) (by simp at hlen ⊢; omega) (fun a ha => hk a (by simp [ha]))]

theorem membersStr_head (kv : List Char × ℤ) (kvs : List (List Char × ℤ)) :
    (membersStr (kv :: kvs)).head? = some '"' := by
  cases kvs with
  | nil => rw [membersStr_single, List.cons_append]; rfl
  | cons kv₂ kvs' => rw [membersStr_cons, List.cons_append]; rfl

theorem jsonParse_membersStr (kv : List Char × ℤ) (kvs : List (List Char × ℤ))
    (hk : ∀ p ∈ kv :: kvs, ∀ c ∈ p.1, c ≠ '"') :
    jsonParseParams ('{' :: membersStr (kv :: kvs)) =
      some (pairsToParams (kv :: kvs)) := by
  rw [jsonParseParams.eq_def]
  simp only
  rw [if_pos trivial, if_neg, parseMembers_membersStr (kv :: kvs) (membersStr (kv :: kvs)).length
    (by simp) (membersStr_length (kv :: kvs)) hk]
  intro heq
  have h1 := congrArg List.head? heq
  rw [membersStr_head] at h1
  exact absurd (Option.some.inj h1) (by decide)

/-- `JSON.parse` inverts `JSON.stringify` on every parameter record. -/
theorem jsonParse_paramsJson (p : ParamsRec) : jsonParseParams (paramsJson p) = some p := by
  have clean : ∀ kv : List Char × ℤ, ∀ kvs : List (List Char × ℤ),
      (∀ q ∈ kv :: kvs, q.1 = "maxEnemies".toList ∨ q.1 = "enemySpawnChance".toList ∨
        q.1 = "coinSpawnChance".toList) →
      ∀ q ∈ kv :: kvs, ∀ c ∈ q.1, c ≠ '"' := by
    intro kv kvs hks q hq
    rcases hks q hq with h | h | h <;> rw [h] <;> decide
  obtain ⟨mE, eS, cS⟩ := p
  cases mE with
  | none =>
    cases eS with
    | none =>
      cases cS with
      | none => rfl
      | some c =>
        show jsonParseParams ('{' :: membersStr [("coinSpawnChance".toList, c)]) = _
        rw [jsonParse_membersStr _ _ (clean _ _ (by intro q hq; simp at hq; subst hq; simp))]
        rfl
    | some e =>
      cases cS with
      | none =>
        show jsonParseParams ('{' :: membersStr [("enemySpawnChance".toList, e)]) = _
        rw [jsonParse_membersStr _ _ (clean _ _ (by intro q hq; simp at hq; subst hq; simp))]
        rfl
      | some c =>
        show jsonParseParams ('{' :: membersStr
          [("enemySpawnChance".toList, e), ("coinSpawnChance".toList, c)]) = _
        rw [jsonParse_membersStr _ _ (clean _ _
          (by intro q hq; simp at hq; rcases hq with rfl | rfl <;> simp))]
        rfl
  | some m =>
    cases eS with
    | none =>
      cases cS with
      | none =>
        show jsonParseParams ('{' :: membersStr [("maxEnemies".toList, m)]) = _
        rw [jsonParse_membersStr _ _ (clean _ _ (by intro q hq; simp at hq; subst hq; simp))]
        rfl
      | some c =>
        show jsonParseParams ('{' :: membersStr
          [("maxEnemies".toList, m), ("coinSpawnChance".toList, c)]) = _
        rw [jsonParse_membersStr _ _ (clean _ _
          (by intro q hq; simp at hq; rcases hq with rfl | rfl <;> simp))]
        rfl
    | some e =>
      cases cS with
      | none =>
        show jsonParseParams ('{' :: membersStr
          [("maxEnemies".toList, m), ("enemySpawnChance".toList, e)]) = _
        rw [jsonParse_membersStr _ _ (clean _ _
          (by intro q hq; simp at hq; rcases hq with rfl | rfl <;> simp))]
        rfl
      | some c =>
        show jsonParseParams ('{' :: membersStr
          [("maxEnemies".toList, m), ("enemySpawnChance".toList, e),
            ("coinSpawnChance".toList, c)]) = _
        rw [jsonParse_membersStr _ _ (clean _ _
          (by intro q hq; simp at hq; rcases hq with rfl | rfl | rfl <;> simp))]
        rfl

/-! ## Character classes of encoded payloads -/

theorem digit_toNat_lt_128 {c : Char} (h : c.isDigit = true) : c.toNat < 128 := by
  have := isDigit_toNat h
  omega

theorem b64url_char_class : ∀ s : ℕ,
    (toUrlChar (b64c s)).toNat = 45 ∨ (toUrlChar (b64c s)).toNat = 95 ∨
    (65 ≤ (toUrlChar (b64c s)).toNat ∧ (toUrlChar (b64c s)).toNat ≤ 90) ∨
    (97 ≤ (toUrlChar (b64c s)).toNat ∧ (toUrlChar (b64c s)).toNat ≤ 122) ∨
    (48 ≤ (toUrlChar (b64c s)).toNat ∧ (toUrlChar (b64c s)).toNat ≤ 57) := by
  intro s
  unfold b64c
  by_cases h1 : s < 26
  · rw [if_pos h1]
    have hA : (Char.ofNat (65 + s)).toNat = 65 + s := char_ofNat_toNat (by omega)
    have hid : toUrlChar (Char.ofNat (65 + s)) = Char.ofNat (65 + s) := by
      unfold toUrlChar
      rw [if_neg (char_toNat_ne (by rw [hA, show ('+').toNat = 43 from rfl]; omega)),
        if_neg (char_toNat_ne (by rw [hA, show ('/').toNat = 47 from rfl]; omega))]
    rw [hid, hA]
    omega
  · rw [if_neg h1]
    by_cases h2 : s < 52
    · rw [if_pos h2]
      have hA : (Char.ofNat (97 + (s - 26))).toNat = 97 + (s - 26) :=
        char_ofNat_toNat (by omega)
      have hid : toUrlChar (Char.ofNat (97 + (s - 26))) = Char.ofNat (97 + (s - 26)) := by
        unfold toUrlChar
        rw [if_neg (char_toNat_ne (by rw [hA, show ('+').toNat = 43 from rfl]; omega)),
          if_neg (char_toNat_ne (by rw [hA, show ('/').toNat = 47 from rfl]; omega))]
      rw [hid, hA]
      omega
    · rw [if_neg h2]
      by_cases h3 : s < 62
      · rw [if_pos h3]
        have hA : (Char.ofNat (48 + (s - 52))).toNat = 48 + (s - 52) :=
          char_ofNat_toNat (by omega)
        have hid : toUrlChar (Char.ofNat (48 + (s - 52))) = Char.ofNat (48 + (s - 52)) := by
          unfold toUrlChar
          rw [if_neg (char_toNat_ne (by rw [hA, show ('+').toNat = 43 from rfl]; omega)),
            if_neg (char_toNat_ne (by rw [hA, show ('/').toNat = 47 from rfl]; omega))]
        rw [hid, hA]
        omega
      · rw [if_neg h3]
        by_cases h4 : s = 62
        · rw [if_pos h4]
          decide
        · rw [if_neg h4]
          decide

theorem mem_bytesToB64 : ∀ bs : List ℕ, ∀ c ∈ bytesToB64 bs, ∃ s, c = b64c s
  | [], _, hc => absurd hc (by simp [bytesToB64])
  | [b0], c, hc => by
    have hc' : c ∈ [b64c (b0 / 4), b64c (b0 % 4 * 16)] := hc
    simp only [List.mem_cons, List.mem_singleton, List.not_mem_nil, or_false] at hc'
    rcases hc' with rfl | rfl
    · exact ⟨_, rfl⟩
    · exact ⟨_, rfl⟩
  | [b0, b1], c, hc => by
    have hc' : c ∈ [b64c (b0 / 4), b64c (b0 % 4 * 16 + b1 / 16), b64c (b1 % 16 * 4)] := hc
    simp only [List.mem_cons, List.mem_singleton, List.not_mem_nil, or_false] at hc'
    rcases hc' with rfl | rfl | rfl
    · exact ⟨_, rfl⟩
    · exact ⟨_, rfl⟩
    · exact ⟨_, rfl⟩
  | b0 :: b1 :: b2 :: b3 :: rest, c, hc => by
    have hc' : c ∈ b64c (b0 / 4) :: b64c (b0 % 4 * 16 + b1 / 16) ::
      b64c (b1 % 16 * 4 + b2 / 64) :: b64c (b2 % 64) :: bytesToB64 (b3 :: rest) := hc
    simp only [List.mem_cons] at hc'
    rcases hc' with rfl | rfl | rfl | rfl | hc'
    · exact ⟨_, rfl⟩
    · exact ⟨_, rfl⟩
    · exact ⟨_, rfl⟩
    · exact ⟨_, rfl⟩
    · exact mem_bytesToB64 (b3 :: rest) c hc'
  | [b0, b1, b2], c, hc => by
    have hc' : c ∈ b64c (b0 / 4) :: b64c (b0 % 4 * 16 + b1 / 16) ::
      b64c (b1 % 16 * 4 + b2 / 64) :: b64c (b2 % 64) :: ([] : List Char) := hc
    simp only [List.mem_cons, List.not_mem_nil, or_false] at hc'
    rcases hc' with rfl | rfl | rfl | rfl
    · exact ⟨_, rfl⟩
    · exact ⟨_, rfl⟩
    · exact ⟨_, rfl⟩
    · exact ⟨_, rfl⟩

theorem mem_b64urlOfBytes {bs : List ℕ} {c : Char} (hc : c ∈ b64urlOfBytes bs) :
    ∃ s, c = toUrlChar (b64c s) := by
  unfold b64urlOfBytes at hc
  rw [List.mem_map] at hc
  obtain ⟨a, ha, rfl⟩ := hc
  obtain ⟨s, rfl⟩ := mem_bytesToB64 bs a ha
  exact ⟨s, rfl⟩

theorem b64url_toNat_lt_128 {bs : List ℕ} {c : Char} (hc : c ∈ b64urlOfBytes bs) :
    c.toNat < 128 := by
  obtain ⟨s, rfl⟩ := mem_b64urlOfBytes hc
  rcases b64url_char_class s with h | h | h | h | h <;> omega

theorem b64url_ne_pipe {bs : List ℕ} {c : Char} (hc : c ∈ b64urlOfBytes bs) :
    c ≠ '|' := by
  obtain ⟨s, rfl⟩ := mem_b64urlOfBytes hc
  apply char_toNat_ne
  rcases b64url_char_class s with h | h | h | h | h <;>
    first | (rw [h]; decide) | (rw [show ('|').toNat = 124 from rfl]; omega)

theorem mem_rleGo : ∀ rest : List Char, ∀ cur c : Char, ∀ k : ℕ,
    c ∈ rleGo cur k rest → c = cur ∨ c ∈ rest ∨ c.isDigit = true := by
  intro rest
  induction rest with
  | nil =>
    intro cur c k hc
    rw [rleGo] at hc
    unfold rleEmit at hc
    split at hc
    · rename_i h
      rcases List.mem_cons.mp hc with rfl | hc
      · left; exact h.1.symm
      · right; right; exact natToChars_all_digit _ c hc
    · rw [List.mem_replicate] at hc
      left; exact hc.2
  | cons x rest ih =>
    intro cur c k hc
    rw [rleGo] at hc
    split at hc
    · rename_i h
      rcases ih cur c (k + 1) hc with h1 | h1 | h1
      · left; exact h1
      · right; left; simp [h1]
      · right; right; exact h1
    · rw [List.mem_append] at hc
      rcases hc with hc | hc
      · unfold rleEmit at hc
        split at hc
        · rename_i h
          rcases List.mem_cons.mp hc with rfl | hc
          · left; exact h.1.symm
          · right; right; exact natToChars_all_digit _ c hc
        · rw [List.mem_replicate] at hc
          left; exact hc.2
      · rcases ih x c 1 hc with h1 | h1 | h1
        · right; left; simp [h1]
        · right; left; simp [h1]
        · right; right; exact h1

theorem mem_rle {s : List Char} {c : Char} (hc : c ∈ runLengthEncode s) :
    c ∈ s ∨ c.isDigit = true := by
  cases s with
  | nil => exact absurd hc (by simp [runLengthEncode])
  | cons x rest =>
    rw [runLengthEncode] at hc
    rcases mem_rleGo rest x c 1 hc with rfl | h | h
    · left; simp
    · left; simp [h]
    · right; exact h

/-! ## Decomposing decoded payloads -/

theorem contains_iff (c : Char) (l : List Char) : l.contains c = true ↔ c ∈ l := by
  simp [List.contains]

theorem mainDataOf_no_pipe {dec : List Char} (h : '|' ∉ dec) : mainDataOf dec = dec := by
  unfold mainDataOf
  rw [if_neg]
  intro hc
  exact h ((contains_iff '|' dec).mp hc)

theorem mainDataOf_pipe {a b : List Char} (ha : '|' ∉ a) :
    mainDataOf (a ++ '|' :: b) = a := by
  unfold mainDataOf
  rw [if_pos ((contains_iff _ _).mpr (by simp)), jsSplit_append b ha]
  rfl

theorem paramsOfServer_no_pipe {dec : List Char} (h : '|' ∉ dec) :
    paramsOfServer dec = noParams := by
  unfold paramsOfServer
  rw [if_neg]
  intro hc
  exact h ((contains_iff '|' dec).mp hc)

theorem paramsOfServer_pipe {a b : List Char} (ha : '|' ∉ a) (hb : '|' ∉ b) :
    paramsOfServer (a ++ '|' :: b) =
      (jsonParseParams (base64urlDecode b)).getD noParams := by
  unfold paramsOfServer
  rw [if_pos ((contains_iff _ _).mpr (by simp)), jsSplit_append b ha, jsSplit_not_mem hb]
  rfl

theorem jsSplit_sep_between {sep : Char} {a b : List Char} (ha : sep ∉ a) (hb : sep ∉ b) :
    jsSplit sep (a ++ sep :: b) = [a, b] := by
  rw [jsSplit_append b ha, jsSplit_not_mem hb]

/-- `decodePayload` on a payload whose tile segment exists. -/
theorem decodePayload_eq {dec ts : List Char} (h : tileDataOf dec = some ts) :
    decodePayload dec = Except.ok
      { tiles := decodeTiles (natIters (widthNumOf dec)) (natIters (heightNumOf dec))
          (runLengthDecode ts)
        width := widthNumOf dec
        height := heightNumOf dec
        maxEnemies := (paramsOfServer dec).maxEnemies
        enemySpawnChance := (paramsOfServer dec).enemySpawnChance
        coinSpawnChance := (paramsOfServer dec).coinSpawnChance } := by
  unfold decodePayload
  rw [h]

/-- `decodePayload` on a payload without a `':'`. -/
theorem decodePayload_err {dec : List Char} (h : tileDataOf dec = none) :
    decodePayload dec = Except.error "TypeError: cannot read length of undefined" := by
  unfold decodePayload
  rw [h]

/-! ## Character facts about encoded payloads -/

theorem charOfTile_mem (t : ℕ) :
    charOfTile t ∈ ['.', 'G', 'R', 'Y', 'I', 'F', 'S', 'W'] := by
  by_cases h : t ≤ 7
  · interval_cases t <;> decide
  · obtain ⟨u, rfl⟩ : ∃ u, t = u + 8 := ⟨t - 8, by omega⟩
    rw [charOfTile_big]
    decide

theorem mem_flatTileChars {tiles : List (List ℕ)} {c : Char}
    (hc : c ∈ flatTileChars tiles) : ∃ t, c = charOfTile t := by
  unfold flatTileChars at hc
  rw [List.mem_flatten] at hc
  obtain ⟨l, hl, hcl⟩ := hc
  rw [List.mem_map] at hl
  obtain ⟨row, _, rfl⟩ := hl
  rw [List.mem_map] at hcl
  obtain ⟨t, _, rfl⟩ := hcl
  exact ⟨t, rfl⟩

theorem flat_not_digit {tiles : List (List ℕ)} : ∀ c ∈ flatTileChars tiles,
    c.isDigit = false := by
  intro c hc
  obtain ⟨t, rfl⟩ := mem_flatTileChars hc
  exact charOfTile_not_digit t

theorem ts_char_ne {tiles : List (List ℕ)} {c : Char}
    (hc : c ∈ runLengthEncode (flatTileChars tiles)) : c ≠ ':' ∧ c ≠ '|' := by
  rcases mem_rle hc with h | h
  · obtain ⟨t, rfl⟩ := mem_flatTileChars h
    have := charOfTile_mem t
    simp only [List.mem_cons, List.mem_singleton, List.not_mem_nil, or_false] at this
    rcases this with h8 | h8 | h8 | h8 | h8 | h8 | h8 | h8 <;> rw [h8] <;>
      exact ⟨by decide, by decide⟩
  · exact ⟨ne_of_isDigit h (by decide), ne_of_isDigit h (by decide)⟩

theorem ts_char_lt_128 {tiles : List (List ℕ)} {c : Char}
    (hc : c ∈ runLengthEncode (flatTileChars tiles)) : c.toNat < 128 := by
  rcases mem_rle hc with h | h
  · obtain ⟨t, rfl⟩ := mem_flatTileChars h
    exact charOfTile_toNat_lt_128 t
  · exact digit_toNat_lt_128 h

theorem dims_char_ne {w h : ℕ} {c : Char}
    (hc : c ∈ natToChars w ++ 'x' :: natToChars h) : c ≠ ':' ∧ c ≠ '|' ∧ c.toNat < 128 := by
  rw [List.mem_append, List.mem_cons] at hc
  rcases hc with hc | rfl | hc
  · have := natToChars_all_digit w c hc
    exact ⟨ne_of_isDigit this (by decide), ne_of_isDigit this (by decide),
      digit_toNat_lt_128 this⟩
  · exact ⟨by decide, by decide, by decide⟩
  · have := natToChars_all_digit h c hc
    exact ⟨ne_of_isDigit this (by decide), ne_of_isDigit this (by decide),
      digit_toNat_lt_128 this⟩

theorem intToChars_chars (v : ℤ) : ∀ c ∈ intToChars v, c = '-' ∨ c.isDigit = true := by
  intro c hc
  unfold intToChars at hc
  split at hc
  · rcases List.mem_cons.mp hc with rfl | hc
    · left; rfl
    · right; exact natToChars_all_digit _ c hc
  · right; exact natToChars_all_digit _ c hc

theorem membersStr_single' (kv : List Char × ℤ) :
    membersStr [kv] = memberChars kv ++ ['}'] := rfl

theorem membersStr_cons' (kv kv₂ : List Char × ℤ) (kvs : List (List Char × ℤ)) :
    membersStr (kv :: kv₂ :: kvs) = memberChars kv ++ ',' :: membersStr (kv₂ :: kvs) := by
  unfold membersStr
  rw [List.map_cons, List.map_cons, joinComma_cons₂]
  simp [List.append_assoc]

theorem memberChars_ascii (kv : List Char × ℤ) (hk : ∀ c ∈ kv.1, c.toNat < 128) :
    ∀ c ∈ memberChars kv, c.toNat < 128 := by
  intro c hc
  unfold memberChars at hc
  rw [List.cons_append, List.mem_cons, List.mem_append, List.mem_cons, List.mem_cons] at hc
  rcases hc with rfl | hc | rfl | rfl | hc
  · decide
  · exact hk c hc
  · decide
  · decide
  · rcases intToChars_chars kv.2 c hc with rfl | h
    · decide
    · exact digit_toNat_lt_128 h

theorem membersStr_ascii : ∀ kvs : List (List Char × ℤ),
    (∀ kv ∈ kvs, ∀ c ∈ kv.1, c.toNat < 128) →
    ∀ c ∈ membersStr kvs, c.toNat < 128 := by
  intro kvs
  induction kvs with
  | nil =>
    intro _ c hc
    have h1 : c ∈ ['}'] := hc
    rw [List.mem_singleton] at h1
    subst h1
    decide
  | cons kv kvs ih =>
    intro hk c hc
    cases kvs with
    | nil =>
      rw [membersStr_single', List.mem_append, List.mem_singleton] at hc
      rcases hc with hc | rfl
      · exact memberChars_ascii kv (hk kv (by simp)) c hc
      · decide
    | cons kv₂ kvs' =>
      rw [membersStr_cons', List.mem_append, List.mem_cons] at hc
      rcases hc with hc | rfl | hc
      · exact memberChars_ascii kv (hk kv (by simp)) c hc
      · decide
      · exact ih (fun q hq => hk q (by simp [hq])) c hc

theorem paramsPairs_keys (pr : ParamsRec) : ∀ q ∈ paramsPairs pr,
    q.1 = "maxEnemies".toList ∨ q.1 = "enemySpawnChance".toList ∨
    q.1 = "coinSpawnChance".toList := by
  obtain ⟨mE, eS, cS⟩ := pr
  intro q hq
  unfold paramsPairs at hq
  cases mE <;> cases eS <;> cases cS <;>
    simp only [List.nil_append, List.append_nil, List.mem_append, List.mem_singleton,
      List.not_mem_nil, or_false, false_or] at hq <;>
    first
    | exact hq.elim
    | (rcases hq with (rfl | rfl) | rfl <;>
        first | (left; rfl) | (right; left; rfl) | (right; right; rfl))
    | (rcases hq with rfl | rfl | rfl <;>
        first | (left; rfl) | (right; left; rfl) | (right; right; rfl))
    | (rcases hq with rfl | rfl <;>
        first | (left; rfl) | (right; left; rfl) | (right; right; rfl))
    | (subst hq
       first | (left; rfl) | (right; left; rfl) | (right; right; rfl))

theorem paramsJson_ascii (pr : ParamsRec) : ∀ c ∈ paramsJson pr, c.toNat < 128 := by
  intro c hc
  unfold paramsJson at hc
  rw [List.mem_cons] at hc
  rcases hc with rfl | hc
  · decide
  · refine membersStr_ascii (paramsPairs pr) ?_ c hc
    intro kv hkv
    rcases paramsPairs_keys pr kv hkv with h | h | h <;> rw [h] <;> decide

theorem natIters_coe (n : ℕ) : natIters (some (n : ℤ)) = n := by
  rw [show natIters (some (n : ℤ)) = (n : ℤ).toNat from rfl]
  omega

theorem jsSplit_dims (w h : ℕ) :
    jsSplit 'x' (natToChars w ++ 'x' :: natToChars h) = [natToChars w, natToChars h] := by
  apply jsSplit_sep_between
  · intro hx
    exact absurd rfl (ne_of_isDigit (natToChars_all_digit w 'x' hx) (by decide))
  · intro hx
    exact absurd rfl (ne_of_isDigit (natToChars_all_digit h 'x' hx) (by decide))

/-! ## The decode-after-encode computation -/

theorem encodeCore_shape (p : LevelPayloadIn) :
    encodeCore p =
      (natToChars (encodeWidth p.tiles) ++ 'x' :: natToChars p.tiles.length) ++
        ':' :: runLengthEncode (flatTileChars p.tiles) ++
        (if (levelParams p).maxEnemies.isSome || (levelParams p).enemySpawnChance.isSome ||
            (levelParams p).coinSpawnChance.isSome then
          '|' :: base64urlEncode (paramsJson (levelParams p))
        else []) := by
  unfold encodeCore
  by_cases hcond : ((levelParams p).maxEnemies.isSome ||
      (levelParams p).enemySpawnChance.isSome ||
      (levelParams p).coinSpawnChance.isSome) = true
  · rw [if_pos hcond, if_pos hcond]
    try simp [List.append_assoc]
  · rw [if_neg hcond, if_neg hcond]
    try simp [List.append_assoc]

theorem core_no_pipe (p : LevelPayloadIn) :
    '|' ∉ (natToChars (encodeWidth p.tiles) ++ 'x' :: natToChars p.tiles.length) ++
      ':' :: runLengthEncode (flatTileChars p.tiles) := by
  intro hc
  rw [List.mem_append, List.mem_cons] at hc
  rcases hc with hc | hc | hc
  · exact (dims_char_ne hc).2.1 rfl
  · exact absurd hc.symm (by decide)
  · exact (ts_char_ne hc).2 rfl

theorem mainDataOf_encodeCore (p : LevelPayloadIn) :
    mainDataOf (encodeCore p) =
      (natToChars (encodeWidth p.tiles) ++ 'x' :: natToChars p.tiles.length) ++
        ':' :: runLengthEncode (flatTileChars p.tiles) := by
  rw [encodeCore_shape p]
  by_cases hcond : ((levelParams p).maxEnemies.isSome ||
      (levelParams p).enemySpawnChance.isSome ||
      (levelParams p).coinSpawnChance.isSome) = true
  · rw [if_pos hcond]
    exact mainDataOf_pipe (core_no_pipe p)
  · rw [if_neg hcond, List.append_nil]
    exact mainDataOf_no_pipe (core_no_pipe p)

theorem jsSplit_colon_encodeCore (p : LevelPayloadIn) :
    jsSplit ':' (mainDataOf (encodeCore p)) =
      [natToChars (encodeWidth p.tiles) ++ 'x' :: natToChars p.tiles.length,
        runLengthEncode (flatTileChars p.tiles)] := by
  rw [mainDataOf_encodeCore p]
  apply jsSplit_sep_between
  · intro hc; exact (dims_char_ne hc).1 rfl
  · intro hc; exact (ts_char_ne hc).1 rfl

theorem tileDataOf_encodeCore (p : LevelPayloadIn) :
    tileDataOf (encodeCore p) = some (runLengthEncode (flatTileChars p.tiles)) := by
  unfold tileDataOf
  rw [jsSplit_colon_encodeCore p]
  rfl

theorem dimensionsOf_encodeCore (p : LevelPayloadIn) :
    dimensionsOf (encodeCore p) =
      natToChars (encodeWidth p.tiles) ++ 'x' :: natToChars p.tiles.length := by
  unfold dimensionsOf
  rw [jsSplit_colon_encodeCore p]
  rfl

theorem widthNumOf_encodeCore (p : LevelPayloadIn) :
    widthNumOf (encodeCore p) = some ((encodeWidth p.tiles : ℕ) : ℤ) := by
  unfold widthNumOf
  rw [dimensionsOf_encodeCore p, jsSplit_dims]
  exact jsNumber_natToChars _

theorem heightNumOf_encodeCore (p : LevelPayloadIn) :
    heightNumOf (encodeCore p) = some ((p.tiles.length : ℕ) : ℤ) := by
  unfold heightNumOf
  rw [dimensionsOf_encodeCore p, jsSplit_dims]
  exact jsNumber_natToChars _

theorem opt_none_of_isSome_false {o : Option ℤ} (ho : o.isSome = false) : o = none := by
  cases o with
  | none => rfl
  | some v => exact absurd ho (by simp)

theorem paramsOfServer_encodeCore (p : LevelPayloadIn) :
    paramsOfServer (encodeCore p) = levelParams p := by
  rw [encodeCore_shape p]
  by_cases hcond : ((levelParams p).maxEnemies.isSome ||
      (levelParams p).enemySpawnChance.isSome ||
      (levelParams p).coinSpawnChance.isSome) = true
  · rw [if_pos hcond]
    have hb : '|' ∉ base64urlEncode (paramsJson (levelParams p)) := by
      intro hc'
      exact @b64url_ne_pipe (utf8Encode (paramsJson (levelParams p))) '|' hc' rfl
    rw [paramsOfServer_pipe (core_no_pipe p) hb]
    rw [show base64urlDecode (base64urlEncode (paramsJson (levelParams p))) =
        utf8Decode (b64urlToBytes (b64urlOfBytes (utf8Encode (paramsJson (levelParams p)))))
        from rfl,
      b64url_roundtrip _ (utf8Encode_lt_256 _),
      utf8_roundtrip_ascii _ (paramsJson_ascii (levelParams p)),
      jsonParse_paramsJson (levelParams p)]
    rfl
  · rw [if_neg hcond, List.append_nil, paramsOfServer_no_pipe (core_no_pipe p)]
    simp only [Bool.or_eq_true, not_or, Bool.not_eq_true] at hcond
    obtain ⟨⟨h1, h2⟩, h3⟩ := hcond
    have e1 : p.maxEnemies = none := opt_none_of_isSome_false h1
    have e2 : p.enemySpawnChance = none := opt_none_of_isSome_false h2
    have e3 : p.coinSpawnChance = none := opt_none_of_isSome_false h3
    unfold noParams levelParams
    rw [e1, e2, e3]

/-- Accessor values of `decodeLevel`'s helpers on a payload of the exact
shape `encodeCore` produces. -/
theorem decodePayload_encodeCore (p : LevelPayloadIn)
    (hw : ∀ row ∈ p.tiles, row.length = encodeWidth p.tiles) :
    decodePayload (encodeCore p) = Except.ok
      { tiles := p.tiles.map (List.map normalizeTile)
        width := some (encodeWidth p.tiles)
        height := some p.tiles.length
        maxEnemies := p.maxEnemies
        enemySpawnChance := p.enemySpawnChance
        coinSpawnChance := p.coinSpawnChance } := by
  rw [decodePayload_eq (tileDataOf_encodeCore p), widthNumOf_encodeCore p,
    heightNumOf_encodeCore p, paramsOfServer_encodeCore p,
    rld_rle _ flat_not_digit, natIters_coe, natIters_coe,
    decodeTiles_roundtrip p.tiles _ hw]
  rfl

theorem encodeCore_ascii (p : LevelPayloadIn) : ∀ c ∈ encodeCore p, c.toNat < 128 := by
  intro c hc
  rw [encodeCore_shape p] at hc
  rw [List.append_assoc, List.mem_append] at hc
  rcases hc with hc | hc
  · exact (dims_char_ne hc).2.2
  · rw [List.cons_append, List.mem_cons, List.mem_append] at hc
    rcases hc with rfl | hc | hc
    · decide
    · exact ts_char_lt_128 hc
    · split at hc
      · rcases List.mem_cons.mp hc with rfl | hc
        · decide
        · exact @b64url_toNat_lt_128 (utf8Encode (paramsJson (levelParams p))) c hc
      · exact absurd hc (by simp)

/-- The server-side codec round trip at the token level: decoding an
encoded level reproduces the (normalized) grid, its dimensions, and the
parameter set. -/
theorem decodeLevel_encodeLevel (p : LevelPayloadIn)
    (hw : ∀ row ∈ p.tiles, row.length = encodeWidth p.tiles) :
    decodeLevel (encodeLevel p) = Except.ok
      { tiles := p.tiles.map (List.map normalizeTile)
        width := some (encodeWidth p.tiles)
        height := some p.tiles.length
        maxEnemies := p.maxEnemies
        enemySpawnChance := p.enemySpawnChance
        coinSpawnChance := p.coinSpawnChance } := by
  unfold decodeLevel encodeLevel
  rw [base64url_roundtrip_ascii (encodeCore p) (encodeCore_ascii p)]
  exact decodePayload_encodeCore p hw

/-! ## The claims -/

/-- C4: `runLengthEncode` replaces every maximal run of `'.'` of length
greater than 2 by `'.'` followed by the decimal run length, leaves runs of
length 1–2 literal, never compresses runs of any non-`'.'` character and
never merges runs across one; concretely `".."` encodes to `".."`,
`"..."` to `".3"`, `"GG..RR"` is unchanged, `"G....R"` becomes `"G.4R"`,
and `runLengthDecode` recovers the original string from each result. -/
theorem C4_run_length_encode :
    (∀ pre suf : List Char, ∀ n : ℕ, 1 ≤ n →
      (∀ l, pre.getLast? = some l → l ≠ '.') →
      (∀ c, suf.head? = some c → c ≠ '.') →
      runLengthEncode (pre ++ List.replicate n '.' ++ suf) =
        runLengthEncode pre ++
          (if 2 < n then '.' :: natToChars n else List.replicate n '.') ++
          runLengthEncode suf) ∧
    (∀ n : ℕ, ∀ c : Char, c ≠ '.' →
      runLengthEncode (List.replicate n c) = List.replicate n c) ∧
    runLengthEncode "..".toList = "..".toList ∧
    runLengthEncode "...".toList = ".3".toList ∧
    runLengthEncode "GG..RR".toList = "GG..RR".toList ∧
    runLengthEncode "G....R".toList = "G.4R".toList ∧
    runLengthDecode "..".toList = "..".toList ∧
    runLengthDecode ".3".toList = "...".toList ∧
    runLengthDecode "GG..RR".toList = "GG..RR".toList ∧
    runLengthDecode "G.4R".toList = "G....R".toList :=
  ⟨fun pre suf n hn hpre hsuf => rle_maximal_run pre suf n hn hpre hsuf,
   fun n c hc => rle_replicate_nondot hc n,
   rfl, rfl, rfl, rfl, rfl, rfl, rfl, rfl⟩

theorem C4_run_length_encode_witness :
    runLengthEncode ("G".toList ++ List.replicate 4 '.' ++ "R".toList) =
      runLengthEncode "G".toList ++
        (if 2 < 4 then '.' :: natToChars 4 else List.replicate 4 '.') ++
        runLengthEncode "R".toList :=
  C4_run_length_encode.1 "G".toList "R".toList 4 (by decide)
    (by intro l hl; cases hl; decide) (by intro c hc; cases hc; decide)

set_option maxRecDepth 8000 in
/-- C8: the grid `[[1,0,0],[0,0,2]]` (3×2, no parameters) flattens to
`"G....R"`, compresses to `"G.4R"`, encodes as the URL-safe base64 of
exactly `"3x2:G.4R"` (the token `"M3gyOkcuNFI"`), and decoding that token
reproduces the original grid. -/
theorem C8_end_to_end :
    runLengthEncode "G....R".toList = "G.4R".toList ∧
    encodeLevel ⟨[[1, 0, 0], [0, 0, 2]], none, none, none⟩ =
      base64urlEncode "3x2:G.4R".toList ∧
    base64urlEncode "3x2:G.4R".toList = "M3gyOkcuNFI".toList ∧
    decodeLevel "M3gyOkcuNFI".toList =
      Except.ok ⟨[[1, 0, 0], [0, 0, 2]], some 3, some 2, none, none, none⟩ :=
  ⟨rfl, rfl, rfl, rfl⟩

set_option maxRecDepth 8000 in
/-- C10: encoding a grid with zero rows produces the token
`base64url("0x0:") = "MHgwOg"`; the server-side `decodeLevel` accepts it
and returns an empty grid with width and height `0`, while the UI-side
`LevelEncoder.decode` throws `"Invalid encoded level"` on the very same
token because the tile-data segment after the `':'` is empty. -/
theorem C10_zero_row_grid :
    encodeLevel ⟨[], none, none, none⟩ = base64urlEncode "0x0:".toList ∧
    base64urlEncode "0x0:".toList = "MHgwOg".toList ∧
    tileDataOf "0x0:".toList = some [] ∧
    decodeLevel "MHgwOg".toList =
      Except.ok ⟨[], some 0, some 0, none, none, none⟩ ∧
    uiDecodeLevel "MHgwOg".toList = Except.error "Invalid encoded level" :=
  ⟨rfl, rfl, rfl, rfl, rfl⟩

/-- C1: for every rectangular grid with dimensions in `[1,200]` and tile
identifiers in `[0,7]`, and every subset of the three gameplay parameters
(values in the range JS doubles represent exactly), decoding an encoded
level returns exactly the original grid — same width, same height, same
per-cell tile identifiers — and exactly the original parameter set. -/
theorem C1_round_trip (p : LevelPayloadIn) (w h : ℕ)
    (hw1 : 1 ≤ w) (hw200 : w ≤ 200) (hh1 : 1 ≤ h) (hh200 : h ≤ 200)
    (hheight : p.tiles.length = h)
    (hrect : ∀ row ∈ p.tiles, row.length = w)
    (htile : ∀ row ∈ p.tiles, ∀ t ∈ row, t ≤ 7)
    (hvals : ∀ v : ℤ, (p.maxEnemies = some v ∨ p.enemySpawnChance = some v ∨
      p.coinSpawnChance = some v) → v.natAbs ≤ 2 ^ 53) :
    decodeLevel (encodeLevel p) = Except.ok
      { tiles := p.tiles
        width := some (w : ℤ)
        height := some (h : ℤ)
        maxEnemies := p.maxEnemies
        enemySpawnChance := p.enemySpawnChance
        coinSpawnChance := p.coinSpawnChance } := by
  have hewidth : encodeWidth p.tiles = w := by
    cases htl : p.tiles with
    | nil => rw [htl] at hheight; simp at hheight; omega
    | cons row rest =>
      show row.length = w
      exact hrect row (by rw [htl]; simp)
  have hid : p.tiles.map (List.map normalizeTile) = p.tiles := by
    have h1 : p.tiles.map (List.map normalizeTile) = p.tiles.map id := by
      apply List.map_congr_left
      intro row hrow
      have h2 : List.map normalizeTile row = List.map id row := by
        apply List.map_congr_left
        intro t ht
        exact tile_norm_id (htile row hrow t ht)
      rw [h2, List.map_id]
      rfl
    rw [h1, List.map_id]
  rw [decodeLevel_encodeLevel p (by rw [hewidth]; exact hrect), hid, hewidth, hheight]

theorem C1_round_trip_witness :
    decodeLevel (encodeLevel ⟨[[1, 0, 0], [0, 0, 2]], some 5, some 30, none⟩) =
      Except.ok ⟨[[1, 0, 0], [0, 0, 2]], some 3, some 2, some 5, some 30, none⟩ :=
  C1_round_trip ⟨[[1, 0, 0], [0, 0, 2]], some 5, some 30, none⟩ 3 2
    (by decide) (by decide) (by decide) (by decide) rfl
    (by intro row hrow
        simp only [List.mem_cons, List.not_mem_nil, or_false] at hrow
        rcases hrow with rfl | rfl <;> decide)
    (by intro row hrow
        simp only [List.mem_cons, List.not_mem_nil, or_false] at hrow
        rcases hrow with rfl | rfl <;> decide)
    (by intro v hv
        rcases hv with hv | hv | hv
        · cases hv; decide
        · cases hv; decide
        · exact Option.noConfusion hv)

/-- C7: `encodeLevel` never fails on out-of-range tile identifiers: an
identifier absent from the id→char table is flattened to `'.'`, encoding
proceeds, and the resulting token decodes those cells as the empty tile
`0` (in-range identifiers come back unchanged). -/
theorem C7_lenient_encode (p : LevelPayloadIn)
    (hrect : ∀ row ∈ p.tiles, row.length = encodeWidth p.tiles) :
    (∀ t : ℕ, tileChars t = none → charOfTile t = '.') ∧
    (∀ t : ℕ, 7 < t → normalizeTile t = 0) ∧
    (∀ t : ℕ, t ≤ 7 → normalizeTile t = t) ∧
    decodeLevel (encodeLevel p) = Except.ok
      { tiles := p.tiles.map (List.map normalizeTile)
        width := some (encodeWidth p.tiles)
        height := some p.tiles.length
        maxEnemies := p.maxEnemies
        enemySpawnChance := p.enemySpawnChance
        coinSpawnChance := p.coinSpawnChance } := by
  refine ⟨?_, ?_, ?_, decodeLevel_encodeLevel p hrect⟩
  · intro t ht
    unfold charOfTile
    rw [ht]
    rfl
  · intro t ht
    unfold normalizeTile
    rw [if_neg (by omega)]
  · intro t ht
    exact tile_norm_id ht

theorem C7_lenient_encode_witness :
    decodeLevel (encodeLevel ⟨[[1, 9], [0, 200]], none, none, none⟩) =
      Except.ok ⟨[[1, 0], [0, 0]], some 2, some 2, none, none, none⟩ := by
  have h := (C7_lenient_encode ⟨[[1, 9], [0, 200]], none, none, none⟩
    (by intro row hrow
        simp only [List.mem_cons, List.not_mem_nil, or_false] at hrow
        rcases hrow with rfl | rfl <;> decide)).2.2.2
  rw [h]
  rfl

/-- C9: whenever `decodeLevel` returns without error and the parsed width
and height are nonnegative integers, the returned grid is rectangular —
exactly `height` rows of exactly `width` entries each — and every entry is
a tile identifier in `[0,7]`, whatever the tile-data section contained. -/
theorem C9_rectangular (token : List Char) (lvl : DecodedLevel) (w h : ℤ)
    (hok : decodeLevel token = Except.ok lvl)
    (hwidth : lvl.width = some w) (hw0 : 0 ≤ w)
    (hheight : lvl.height = some h) (hh0 : 0 ≤ h) :
    lvl.tiles.length = h.toNat ∧
    (∀ row ∈ lvl.tiles, row.length = w.toNat ∧ ∀ t ∈ row, t ≤ 7) := by
  unfold decodeLevel decodePayload at hok
  rcases htd : tileDataOf (base64urlDecode token) with _ | td
  · rw [htd] at hok
    exact Except.noConfusion hok
  · rw [htd] at hok
    simp only at hok
    obtain rfl := (Except.ok.inj hok).symm
    simp only at hwidth hheight ⊢
    rw [hwidth, hheight]
    refine ⟨?_, ?_⟩
    · rw [show natIters (some h) = h.toNat from rfl]
      exact decodeTiles_length _ _ _
    · intro row hrow
      rw [show natIters (some w) = w.toNat from rfl] at hrow
      exact ⟨decodeTiles_rows _ _ _ row hrow, decodeTiles_entries _ _ _ row hrow⟩

set_option maxRecDepth 8000 in
theorem C9_rectangular_witness :
    ([[1]] : List (List ℕ)).length = (1 : ℤ).toNat ∧
    (∀ row ∈ ([[1]] : List (List ℕ)), row.length = (1 : ℤ).toNat ∧ ∀ t ∈ row, t ≤ 7) :=
  C9_rectangular "MXgxOkc".toList ⟨[[1]], some 1, some 1, none, none, none⟩ 1 1
    rfl rfl (by decide) rfl (by decide)

/-- C6: the decoded payload of an encoded level contains a `'|'` section
exactly when at least one gameplay parameter is present; with no
parameters the payload is exactly `"{width}x{height}:{rle-tiles}"`, and
decoding such a token yields the empty parameter set. -/
theorem C6_parameter_section (p : LevelPayloadIn) :
    base64urlDecode (encodeLevel p) = encodeCore p ∧
    ((encodeCore p).contains '|' = true ↔
      (p.maxEnemies.isSome = true ∨ p.enemySpawnChance.isSome = true ∨
        p.coinSpawnChance.isSome = true)) ∧
    (p.maxEnemies = none → p.enemySpawnChance = none → p.coinSpawnChance = none →
      encodeCore p =
        (natToChars (encodeWidth p.tiles) ++ 'x' :: natToChars p.tiles.length) ++
          ':' :: runLengthEncode (flatTileChars p.tiles) ∧
      ∃ lvl, decodeLevel (encodeLevel p) = Except.ok lvl ∧
        lvl.maxEnemies = none ∧ lvl.enemySpawnChance = none ∧
        lvl.coinSpawnChance = none) := by
  have hb64 : base64urlDecode (encodeLevel p) = encodeCore p := by
    unfold encodeLevel
    exact base64url_roundtrip_ascii (encodeCore p) (encodeCore_ascii p)
  refine ⟨hb64, ⟨?_, ?_⟩, ?_⟩
  · intro hc
    rw [contains_iff] at hc
    rw [encodeCore_shape p] at hc
    by_cases hcond : ((levelParams p).maxEnemies.isSome ||
        (levelParams p).enemySpawnChance.isSome ||
        (levelParams p).coinSpawnChance.isSome) = true
    · simp only [Bool.or_eq_true] at hcond
      unfold levelParams at hcond
      tauto
    · rw [if_neg hcond, List.append_nil] at hc
      exact absurd hc (core_no_pipe p)
  · intro hc
    rw [contains_iff, encodeCore_shape p]
    have hcond : ((levelParams p).maxEnemies.isSome ||
        (levelParams p).enemySpawnChance.isSome ||
        (levelParams p).coinSpawnChance.isSome) = true := by
      simp only [Bool.or_eq_true]
      unfold levelParams
      tauto
    rw [if_pos hcond]
    simp
  · intro h1 h2 h3
    have hshape : encodeCore p =
        (natToChars (encodeWidth p.tiles) ++ 'x' :: natToChars p.tiles.length) ++
          ':' :: runLengthEncode (flatTileChars p.tiles) := by
      rw [encodeCore_shape p, if_neg, List.append_nil]
      unfold levelParams
      rw [h1, h2, h3]
      simp
    refine ⟨hshape, ?_⟩
    refine ⟨DecodedLevel.mk
        (decodeTiles (natIters (widthNumOf (encodeCore p)))
          (natIters (heightNumOf (encodeCore p)))
          (runLengthDecode (runLengthEncode (flatTileChars p.tiles))))
        (widthNumOf (encodeCore p))
        (heightNumOf (encodeCore p))
        ((paramsOfServer (encodeCore p)).maxEnemies)
        ((paramsOfServer (encodeCore p)).enemySpawnChance)
        ((paramsOfServer (encodeCore p)).coinSpawnChance),
      ?_, ?_, ?_, ?_⟩
    · unfold decodeLevel
      rw [hb64]
      exact decodePayload_eq (tileDataOf_encodeCore p)
    · show (paramsOfServer (encodeCore p)).maxEnemies = none
      rw [paramsOfServer_encodeCore p]
      exact h1
    · show (paramsOfServer (encodeCore p)).enemySpawnChance = none
      rw [paramsOfServer_encodeCore p]
      exact h2
    · show (paramsOfServer (encodeCore p)).coinSpawnChance = none
      rw [paramsOfServer_encodeCore p]
      exact h3

theorem C6_parameter_section_witness :
    base64urlDecode (encodeLevel ⟨[[1]], none, none, none⟩) =
      encodeCore ⟨[[1]], none, none, none⟩ ∧
    ((encodeCore ⟨[[1]], none, none, none⟩).contains '|' = true ↔
      ((none : Option ℤ).isSome = true ∨ (none : Option ℤ).isSome = true ∨
        (none : Option ℤ).isSome = true)) ∧
    ((none : Option ℤ) = none → (none : Option ℤ) = none → (none : Option ℤ) = none →
      encodeCore ⟨[[1]], none, none, none⟩ =
        (natToChars (encodeWidth [[1]]) ++ 'x' :: natToChars ([[1]] : List (List ℕ)).length) ++
          ':' :: runLengthEncode (flatTileChars [[1]]) ∧
      ∃ lvl, decodeLevel (encodeLevel ⟨[[1]], none, none, none⟩) = Except.ok lvl ∧
        lvl.maxEnemies = none ∧ lvl.enemySpawnChance = none ∧
        lvl.coinSpawnChance = none) :=
  C6_parameter_section ⟨[[1]], none, none, none⟩

theorem exists_error_ok {α : Type} {x : α} : ¬ ∃ e : String, (Except.ok x : Except String α) = Except.error e := by
  intro ⟨e, he⟩
  exact Except.noConfusion he

